import Mathlib

/-!
Verification of the MyMail SMTP subsystem (scripts/sendsmtp, scripts/postsmtp,
backend mail service) against its natural-language specification.

Strings of the Go / TypeScript sources are modelled as `List Char`; the
relevant Go `strings` / JS `String` library operations are re-implemented
below with their documented semantics, and each source function under test is
transliterated into an executable Lean definition.
-/

/-- Strings of the modelled programs: a Go/JS string as a list of characters. -/
abbrev Str := List Char

/-- The ASCII whitespace characters trimmed by Go `strings.TrimSpace` and by
JS `String.prototype.trim` (restricted to ASCII inputs, which is all the mail
pipeline handles). -/
def isSpaceChar (c : Char) : Bool :=
  c = ' ' || c = '\t' || c = '\n' || c = '\r' || c = '\x0b' || c = '\x0c'

/-- Drop leading whitespace. -/
def trimLeftSpace : Str → Str
  | [] => []
  | c :: r => if isSpaceChar c then trimLeftSpace r else c :: r

/-- Drop trailing whitespace (JS `trimEnd`). -/
def trimRightSpace (s : Str) : Str :=
  (trimLeftSpace s.reverse).reverse

/-- Go `strings.TrimSpace` / JS `trim`. -/
def trimSpace (s : Str) : Str :=
  trimRightSpace (trimLeftSpace s)

/-- Go `strings.TrimRight(s, cutset)` for a one-character cutset. -/
def trimRightChar (s : Str) (c : Char) : Str :=
  (s.reverse.dropWhile (fun x => x = c)).reverse

/-- Go `strings.ToLower` / JS `toLowerCase` (ASCII). -/
def lowerStr (s : Str) : Str := s.map Char.toLower

/-- Go `strings.Index(s, pat)` / JS `indexOf`: index of the first occurrence
of the substring `pat` in `s`, `none` standing for Go's `-1`. -/
def indexOfSub? (s pat : Str) : Option Nat :=
  match s with
  | [] => if pat.isPrefixOf ([] : Str) then some 0 else none
  | c :: r =>
    if pat.isPrefixOf (c :: r) then some 0
    else (indexOfSub? r pat).map (· + 1)

/-- Go `strings.Contains` / JS `includes`. -/
def containsSub (s pat : Str) : Bool := (indexOfSub? s pat).isSome

/-- Go `strings.Index(s, onechar)` specialised to a single character. -/
def indexOfChar? (s : Str) (c : Char) : Option Nat := indexOfSub? s [c]

/-- Single-character containment (Go `strings.Contains(s, ":")` etc.). -/
def containsChar (s : Str) (c : Char) : Bool := containsSub s [c]

/-- Fuelled worker for `splitOnSub`; the fuel is an upper bound on the length
of the remaining input, so it never runs out on the initial call. -/
def splitGo : Nat → Str → Str → Str → List Str
  | 0, _, _, acc => [acc.reverse]
  | fuel + 1, s, sep, acc =>
    match s with
    | [] => [acc.reverse]
    | c :: r =>
      if sep.isPrefixOf (c :: r) then
        acc.reverse :: splitGo fuel (List.drop sep.length (c :: r)) sep []
      else
        splitGo fuel r sep (c :: acc)

/-- Go `strings.Split(s, sep)` / JS `split`: segments of `s` between
occurrences of `sep` (leftmost-first, non-overlapping). -/
def splitOnSub (s sep : Str) : List Str :=
  if sep.isEmpty then s.map (fun c => [c]) else splitGo s.length s sep []

/-- Fuelled worker for `replaceAllSub`. -/
def replGo : Nat → Str → Str → Str → Str
  | 0, s, _, _ => s
  | fuel + 1, s, pat, rep =>
    match s with
    | [] => []
    | c :: r =>
      if pat.isPrefixOf (c :: r) then
        rep ++ replGo fuel (List.drop pat.length (c :: r)) pat rep
      else
        c :: replGo fuel r pat rep

/-- Go `strings.ReplaceAll(s, pat, rep)` (for nonempty `pat`, the only use). -/
def replaceAllSub (s pat rep : Str) : Str :=
  if pat.isEmpty then s else replGo s.length s pat rep

/-- Go `strings.HasPrefix` / JS `startsWith`. -/
def startsWithS (s pre : Str) : Bool := pre.isPrefixOf s

/-- Go `strings.TrimSuffix`: removes one trailing occurrence of `suf`. -/
def trimSuffixS (s suf : Str) : Str :=
  if suf.isSuffixOf s then s.take (s.length - suf.length) else s

/-- Go `strings.Trim(s, cutset)`: strip characters of `cut` from both ends. -/
def trimCharBoth (s : Str) (cut : List Char) : Str :=
  ((s.dropWhile (fun c => cut.contains c)).reverse.dropWhile
    (fun c => cut.contains c)).reverse

/-- Lookup in an association list of header name/value pairs (models both a
Go `map[string]string` read and a JS object property read, content-wise). -/
def lookupA : List (Str × Str) → Str → Option Str
  | [], _ => none
  | (k', v) :: r, k => if k' = k then some v else lookupA r k

/-- Read with Go's zero-value / JS `|| ''` default. -/
def getA (m : List (Str × Str)) (k : Str) : Str := (lookupA m k).getD []

/-- Write a key: update in place if present (keeping first-insertion
position, as a JS object does; a Go map is unordered so the association-list
contents are what it models), append otherwise. -/
def setA : List (Str × Str) → Str → Str → List (Str × Str)
  | [], k, v => [(k, v)]
  | (k', v') :: r, k, v =>
    if k' = k then (k', v) :: r else (k', v') :: setA r k v

/-! ## Outbound transfer agent: scripts/sendsmtp/main.go -/

/-- A DNS MX record as returned by `net.LookupMX` (`net.MX`): mail-exchanger
host and numeric preference. -/
structure MXRecord where
  host : Str
  pref : Nat
  deriving DecidableEq, Repr

/-- The observable outcome of one per-host delivery attempt (dialing the host
on port 25 and, on connect success, driving `smtp.NewClientConnFromJSONMail`);
the network and the SMTP library are external collaborators, so a run is
parametrised by an oracle `Str → HostAttempt`. -/
inductive HostAttempt where
  /-- `dialer.Dial` returned an error (main.go:186-191). -/
  | dialErr (e : Str)
  /-- the SMTP session returned a non-nil error (main.go:237-271). -/
  | smtpErr (e : Str)
  /-- the session returned a nil `ClientConn` and a nil error (main.go:263-268). -/
  | nilConn
  /-- the session succeeded (main.go:273-279). -/
  | ok
  deriving DecidableEq, Repr

/-- The per-attempt error recorded into `lastErr` (main.go:188, 263-268). -/
inductive AttemptErr where
  | connectFailed (host : Str) (e : Str)
  | smtpFailed (e : Str)
  | smtpFailedNil
  deriving DecidableEq, Repr

/-- Result of the candidate loop of `sendToDomain` (main.go:174-280). -/
inductive TryResult where
  | success (host : Str)
  | exhausted (lastErr : Option AttemptErr)
  deriving DecidableEq, Repr

/-- The candidate loop of `sendToDomain` (main.go:174-280): hosts are tried in
the order of the (already sorted) record list; each host is appended to
`attemptedServers` before dialing (main.go:177); a dial or session failure
replaces `lastErr` and moves on to the next candidate; the first session
success returns immediately. Returns the `attemptedServers` log together with
the loop outcome. -/
def tryServers (attempt : Str → HostAttempt) :
    List MXRecord → List (Str × Nat) → Option AttemptErr →
    List (Str × Nat) × TryResult
  | [], attempted, lastErr => (attempted, .exhausted lastErr)
  | mx :: rest, attempted, _lastErr =>
    let host := trimSuffixS mx.host ['.']
    let attempted2 := attempted ++ [(host, mx.pref)]
    match attempt host with
    | .dialErr e => tryServers attempt rest attempted2 (some (.connectFailed host e))
    | .smtpErr e => tryServers attempt rest attempted2 (some (.smtpFailed e))
    | .nilConn => tryServers attempt rest attempted2 (some .smtpFailedNil)
    | .ok => (attempted2, .success host)

/-- The value `sendToDomain` returns to `main` (its `error` result). On
exhaustion the returned `fmt.Errorf` (main.go:285-286) interpolates exactly
the domain, the total number of MX records, and `lastErr`; the
`attemptedServers` list is only written to the log (main.go:284), not into
the returned error. -/
inductive DomainSendResult where
  | ok
  | resolveErr (domain : Str) (e : Str)
  | noMXRecords (domain : Str)
  | allFailed (domain : Str) (total : Nat) (lastErr : Option AttemptErr)
  deriving DecidableEq, Repr

/-- `sendToDomain` from the candidate loop on (main.go:167-287), given the
sorted MX records (the part after `sort.Slice` at main.go:130-132). -/
def sendToDomainTry (attempt : Str → HostAttempt) (domain : Str)
    (recs : List MXRecord) : DomainSendResult :=
  match tryServers attempt recs [] none with
  | (_, .success _) => .ok
  | (_, .exhausted lastErr) => .allFailed domain recs.length lastErr

/-- The comparison function passed to `sort.Slice` (main.go:130-132). -/
def mxLess (a b : MXRecord) : Bool := a.pref < b.pref

/-- Models the call `sort.Slice(mxRecords, less)` at main.go:130-132 by the
documented postcondition of Go's `sort.Slice`: the slice is reordered into a
permutation that is ordered with respect to the supplied `less` function
(nondecreasing `Pref`). Go documents `sort.Slice` as NOT guaranteed to be
stable, so no further constraint holds. -/
def sortSliceMX (input output : List MXRecord) : Prop :=
  output.Perm input ∧ output.Sorted (fun a b => a.pref ≤ b.pref)

/-- Result of the MX resolution step of `sendToDomain` (main.go:119-132). -/
inductive ResolveOut where
  | dnsErr (domain : Str) (e : Str)
  | noRecords (domain : Str)
  | candidates (l : List MXRecord)
  deriving DecidableEq, Repr

/-- The MX resolution step of `sendToDomain` (main.go:119-132) as a relation
(relational because `sort.Slice` is modelled by its contract): a DNS error is
returned as an error (main.go:120-123), an empty record list is the
"no MX records" error (main.go:125-127), otherwise the records are sorted by
`sort.Slice` (main.go:130-132). -/
def resolveMX (domain : Str) (dns : Except Str (List MXRecord))
    (out : ResolveOut) : Prop :=
  match dns with
  | .error e => out = .dnsErr domain e
  | .ok recs =>
    if recs = [] then out = .noRecords domain
    else ∃ l, sortSliceMX recs l ∧ out = .candidates l

/-- Modelled from the spec (the refinement target for the MX ordering claim):
"ordered ascending by preference (lower = tried first); ties broken by
resolver-provided order (stable, not re-sorted)" — a stable insertion of one
record into an already stably-sorted list. -/
def insertByPref (x : MXRecord) : List MXRecord → List MXRecord
  | [] => [x]
  | y :: r => if x.pref ≤ y.pref then x :: y :: r else y :: insertByPref x r

/-- Modelled from the spec: the stable ascending-by-preference ordering the
spec prescribes for `Resolve`. -/
def stableSortByPref : List MXRecord → List MXRecord
  | [] => []
  | x :: r => insertByPref x (stableSortByPref r)

/-- The grouping map `recipientsByDomain` (main.go:92-101) as an
insertion-ordered association list (`append` on an existing key, a new entry
otherwise). -/
def addToGroup : List (Str × List Str) → Str → Str → List (Str × List Str)
  | [], d, r => [(d, [r])]
  | (d2, rs) :: rest, d, r =>
    if d2 = d then (d2, rs ++ [r]) :: rest
    else (d2, rs) :: addToGroup rest d r

/-- The grouping loop (main.go:94-101): split each recipient on `"@"`; a
recipient with other than exactly two parts terminates the process with
`log.Fatalf` ("invalid email address format"), modelled as an error carrying
the offending recipient. -/
def groupRecipients : List Str → List (Str × List Str) →
    Except Str (List (Str × List Str))
  | [], acc => .ok acc
  | r :: rest, acc =>
    let parts := splitOnSub r ['@']
    if parts.length ≠ 2 then .error r
    else groupRecipients rest (addToGroup acc (parts.getD 1 []) r)

/-- What an execution of `main` (sendsmtp) does after JSON parsing
(main.go:80-115). Every `log.Fatalf` terminates the process, which the
variant records; `sentAll`/`domainFailed` record the domains for which
`sendToDomain` was actually invoked. -/
inductive MainResult where
  | missingFrom
  | noRecipients
  | invalidAddress (r : Str)
  | domainFailed (domain : Str) (res : DomainSendResult) (attempted : List Str)
  | sentAll (attempted : List Str)
  deriving DecidableEq, Repr

/-- The per-domain send loop of `main` (main.go:107-112): iterate the groups
(a Go map; this list order models one admissible iteration order, namely
insertion order), calling `sendToDomain`; a non-nil error terminates the
process via `log.Fatalf` at once, so no later domain is attempted. -/
def runDomains (send : Str → List Str → DomainSendResult) :
    List (Str × List Str) → List Str → MainResult
  | [], attempted => .sentAll attempted
  | (d, rs) :: rest, attempted =>
    let res := send d rs
    if res = .ok then runDomains send rest (attempted ++ [d])
    else .domainFailed d res (attempted ++ [d])

/-- `main` of sendsmtp after JSON parsing (main.go:80-115): validate `from`
and the presence of a recipient (main.go:80-85), collect and group recipients
by domain (main.go:88-101), then run the per-domain loop (main.go:107-112).
`sendToDomain` is abstracted by the oracle `send`. -/
def mainSend (send : Str → List Str → DomainSendResult) (fromAddr : Str)
    (toRcpt ccRcpt bccRcpt : List Str) : MainResult :=
  if fromAddr = [] then .missingFrom
  else if toRcpt = [] ∧ ccRcpt = [] ∧ bccRcpt = [] then .noRecipients
  else
    match groupRecipients (toRcpt ++ ccRcpt ++ bccRcpt) [] with
    | .error r => .invalidAddress r
    | .ok groups => runDomains send groups []

/-! ## Inbound receiver: scripts/postsmtp/main.go and db/db.go -/

/-- Inbound per-transaction failure values (the `error` returns of
`HandleMessage` and the exceptions of the backend `receiveEmail`). -/
inductive AcceptErr where
  /-- "invalid recipient format: %s" (postsmtp/main.go:50). -/
  | invalidRecipient (r : Str)
  /-- "failed to validate recipient: %v" (postsmtp/main.go:57). -/
  | validateFailed (e : Str)
  /-- "recipient username not found: %s" (postsmtp/main.go:60). -/
  | userNotFound (username : Str)
  /-- ts `BadRequestException` "Invalid recipient format" (mail.service.ts:391). -/
  | badRecipientFormat (r : Str)
  /-- ts `BadRequestException` "Recipient user does not exist" (mail.service.ts:400). -/
  | recipientNotExists (username : Str)
  /-- ts `BadRequestException` "No valid recipients provided" (mail.service.ts:446). -/
  | noValidRecipients
  deriving DecidableEq, Repr

/-- `ValidateRecipient` (db/db.go:82-94): queries the users table; a query
error is logged and turned into `false` (db.go:89-92); otherwise the reported
existence boolean is returned. The directory query is the oracle. -/
def validateRecipientDB (query : Str → Except Str Bool) (username : Str) : Bool :=
  match query username with
  | .error _ => false
  | .ok b => b

/-- The `EmailExistsChecker` handler (postsmtp/main.go:138-153, API variant):
split the address on `"@"`, reject when zero parts result (dead code: Go
`strings.Split` never returns an empty slice), use `parts[0]` as the
username, and map a lookup error to `false` (main.go:147-150, "returning
false"). -/
def emailExistsCheckerApi (validateUser : Str → Except Str Bool)
    (email : Str) : Bool :=
  let parts := splitOnSub email ['@']
  if parts.length = 0 then false
  else
    match validateUser (parts.headD []) with
    | .error _ => false
    | .ok b => b

/-- The recipient-validation loop of the API-variant `HandleMessage`
(postsmtp/main.go:46-62): for each recipient, split on `"@"`, guard against
zero parts (dead code), look `parts[0]` up via `ValidateUser`; a lookup error
or a non-existent user returns an error for the whole transaction at once. -/
def validateAllApi (validateUser : Str → Except Str Bool) :
    List Str → Option AcceptErr
  | [] => none
  | r :: rest =>
    let parts := splitOnSub r ['@']
    if parts.length = 0 then some (.invalidRecipient r)
    else
      let username := parts.headD []
      match validateUser username with
      | .error e => some (.validateFailed e)
      | .ok false => some (.userNotFound username)
      | .ok true => validateAllApi validateUser rest

/-- The recipient-validation loop of the backend `receiveEmail`
(mail.service.ts:387-402): every recipient must contain `"@"` and its
local part must be an existing user, otherwise a `BadRequestException`
aborts the whole call before any store. -/
def tsValidateAll (userExists : Str → Bool) : List Str → Option AcceptErr
  | [] => none
  | r :: rest =>
    if containsChar r '@' = false then some (.badRecipientFormat r)
    else
      let username := (splitOnSub r ['@']).headD []
      if userExists username = false then some (.recipientNotExists username)
      else tsValidateAll userExists rest

/-- The backend `receiveEmail` storage phase (mail.service.ts:387-447),
tracking the store-writes it performs: after the validation loop, one
`mailRepository.save` per recipient, each with a fresh uid (modelled by the
index); a body-encryption failure falls back to storing the plain body, so a
record is stored per recipient regardless. The parsed message content is
irrelevant to the write count and is omitted here (the parse itself is
modelled separately below). -/
def tsReceiveEmailStores (userExists : Str → Bool) (rcptTo : List Str) :
    List (Nat × Str) × Option AcceptErr :=
  match tsValidateAll userExists rcptTo with
  | some e => ([], some e)
  | none =>
    let writes := (List.range rcptTo.length).zip rcptTo
    if writes.length = 0 then ([], some .noValidRecipients)
    else (writes, none)

/-- The inbound intake pipeline of the API variant: `HandleMessage`
(postsmtp/main.go:44-70) validates every recipient and then hands the message
to the backend `receiveEmail` (which re-validates and stores). Returns the
storage writes performed and the transaction outcome. -/
def acceptApi (validateUser : Str → Except Str Bool) (userExists : Str → Bool)
    (rcptTo : List Str) : List (Nat × Str) × Option AcceptErr :=
  match validateAllApi validateUser rcptTo with
  | some e => ([], some e)
  | none => tsReceiveEmailStores userExists rcptTo

/-! ## The inbound message parsers -/

/-- Line-ending normalization shared by both parsers: `\r\n` → `\n`, then any
remaining `\r` → `\n` (db/db.go:112-114, mail.service.ts:344). -/
def normalizeNewlines (s : Str) : Str :=
  replaceAllSub (replaceAllSub s ['\r', '\n'] ['\n']) ['\r'] ['\n']

/-- The line list both parsers work on (db/db.go:116, mail.service.ts:345). -/
def linesOf (raw : Str) : List Str := splitOnSub (normalizeNewlines raw) ['\n']

/-- The first pass of `StoreMessage` (db/db.go:126-134): the index of the
first line whose trimmed content is empty (the header/body separator), or
`none` — Go keeps `headerEndIndex = -1` — when no such line exists. -/
def goHeaderEndIndex (lines : List Str) : Option Nat :=
  lines.findIdx? (fun l => (trimSpace l).isEmpty)

/-- Mutable state of the second-pass header scan of `StoreMessage`
(db/db.go:119-122): the headers map and `currentHeader`. -/
structure GoParseState where
  headers : List (Str × Str)
  currentHeader : Str
  deriving DecidableEq, Repr

/-- Processing of one header-block line by `StoreMessage`
(db/db.go:150-195): skip a (re-)blank line; a line starting with space/tab
folds into `currentHeader` (db.go:156-161); a line with a `:` that is neither
first nor last character yields a header whose lower-cased name must be
non-empty, space-free and at most 50 characters (db.go:162-193), repeated
names joining their values with `", "`; anything else is skipped. -/
def goHeaderLine (st : GoParseState) (line : Str) : GoParseState :=
  let trimmedLine := trimSpace line
  if trimmedLine = [] then st
  else if startsWithS line [' '] || startsWithS line ['\t'] then
    if st.currentHeader ≠ [] then
      let folded := getA st.headers st.currentHeader ++ [' '] ++ trimSpace line
      { st with headers := setA st.headers st.currentHeader folded }
    else st
  else if containsChar line ':' then
    match indexOfChar? line ':' with
    | none => st
    | some colonIndex =>
      if 0 < colonIndex ∧ colonIndex < line.length - 1 then
        let headerName := trimSpace (line.take colonIndex)
        let headerValue := trimSpace (line.drop (colonIndex + 1))
        let headerNameLower := lowerStr headerName
        if headerNameLower = [] then st
        else if containsChar headerNameLower ' ' then st
        else if headerNameLower.length > 50 then st
        else
          { currentHeader := headerNameLower,
            headers :=
              match lookupA st.headers headerNameLower with
              | some existingValue =>
                setA st.headers headerNameLower
                  (existingValue ++ [',', ' '] ++ headerValue)
              | none => setA st.headers headerNameLower headerValue }
      else st
  else st

/-- The second pass of `StoreMessage` (db/db.go:137-203): every line is first
stripped of trailing `\r` (db.go:139, a no-op after normalization); lines at
index `i ≤ headerEndIndex` go through the header logic (the separator line
itself being skipped), later lines are appended to the body builder with a
`\n` after every line except the globally last one (db.go:196-202). -/
def goScan (sepIdx : Int) (total : Nat) :
    Nat → List Str → GoParseState → Str → GoParseState × Str
  | _, [], st, body => (st, body)
  | i, line :: rest, st, body =>
    let line2 := trimRightChar line '\r'
    if (i : Int) ≤ sepIdx then
      if (i : Int) = sepIdx then goScan sepIdx total (i + 1) rest st body
      else goScan sepIdx total (i + 1) rest (goHeaderLine st line2) body
    else
      goScan sepIdx total (i + 1) rest st
        (body ++ line2 ++ (if i < total - 1 then ['\n'] else []))

/-- The header/body split of `StoreMessage` (db/db.go:109-205), before the
multipart step: normalize line endings, split into lines, find the separator,
run the second pass. -/
def goParseHeadersBody (raw : Str) : List (Str × Str) × Str :=
  let lines := linesOf raw
  let headerEndIndex : Int :=
    match goHeaderEndIndex lines with
    | some k => (k : Int)
    | none => -1
  let res := goScan headerEndIndex lines.length 0 lines ⟨[], []⟩ []
  (res.1.headers, res.2)

/-- Extraction of the boundary value from the text following `boundary=`
(db/db.go:233-274): after trimming, an escaped-quoted value `\"..\"` is cut
at the next `\"` (or bare `"`); a quoted value `"..."` is cut at the closing
quote; an unquoted value is cut at the first `;`/`,`/space/tab/newline/CR;
finally stray quotes are trimmed and escape sequences unescaped. -/
def parseBoundaryValue (boundaryStrInit : Str) : Str :=
  let boundaryStr := trimSpace boundaryStrInit
  let boundaryStr2 :=
    if startsWithS boundaryStr ['\\', '"'] then
      let b2 := boundaryStr.drop 2
      let endQuote :=
        match indexOfSub? b2 ['\\', '"'] with
        | some i => some i
        | none => indexOfSub? b2 ['"']
      match endQuote with
      | some e => b2.take e
      | none => b2
    else if startsWithS boundaryStr ['"'] then
      match indexOfSub? (boundaryStr.drop 1) ['"'] with
      | some endQuote => (boundaryStr.drop 1).take endQuote
      | none => boundaryStr
    else
      let endIndex := [';', ',', ' ', '\t', '\n', '\r'].foldl
        (fun acc ch =>
          match indexOfChar? boundaryStr ch with
          | some idx => if idx < acc then idx else acc
          | none => acc) boundaryStr.length
      if endIndex < boundaryStr.length then boundaryStr.take endIndex
      else boundaryStr
  let boundary := trimSpace boundaryStr2
  let boundary := trimCharBoth boundary ['"']
  let boundary := replaceAllSub boundary ['\\', '"'] ['"']
  replaceAllSub boundary ['\\', '\\'] ['\\']

/-- The boundary located by the multipart step of `StoreMessage`
(db/db.go:208-237): only when the content type is non-empty and contains
`multipart` (case-insensitively); only the first comma-delimited segment is
searched for `boundary=` (db.go:219-224); `none` when the guard fails or no
`boundary=` occurs (db.go:286-288). -/
def boundaryOfContentType (contentType : Str) : Option Str :=
  if contentType ≠ [] ∧ containsSub (lowerStr contentType) ("multipart".toList) then
    let firstContentType :=
      match indexOfChar? contentType ',' with
      | some commaIndex => trimSpace (contentType.take commaIndex)
      | none => contentType
    match indexOfSub? (lowerStr firstContentType) ("boundary=".toList) with
    | none => none
    | some boundaryStart =>
      some (parseBoundaryValue (firstContentType.drop (boundaryStart + 9)))
  else none

/-- The boundary-marker formats probed in order (db/db.go:364-371). -/
def boundaryFormats (boundary : Str) : List Str :=
  [['\r', '\n', '-', '-'] ++ boundary ++ ['\r', '\n'],
   ['\n', '-', '-'] ++ boundary ++ ['\n'],
   ['-', '-'] ++ boundary ++ ['\r', '\n'],
   ['-', '-'] ++ boundary ++ ['\n'],
   ['\r', '\n', '-', '-'] ++ boundary ++ ['\n'],
   ['\n', '-', '-'] ++ boundary ++ ['\r', '\n']]

/-- Boundary-marker selection (db/db.go:362-388): the first probed format
occurring in the body, falling back to the bare `--boundary`, else `none`
(which makes the extraction return the body unchanged, db.go:385-387). -/
def selectMarker (body boundary : Str) : Option Str :=
  match (boundaryFormats boundary).find? (fun f => containsSub body f) with
  | some m => some m
  | none =>
    if containsSub body (['-', '-'] ++ boundary) then some (['-', '-'] ++ boundary)
    else none

/-- The body split into candidate sub-parts (db/db.go:392-404): split on the
selected marker; if that yields a single part, re-split on the bare
`--boundary` when that yields more. An empty list stands for "no marker
found" (the loop over it is then vacuous, as in the source's early return). -/
def partsOfBody (body boundary : Str) : List Str :=
  match selectMarker body boundary with
  | none => []
  | some boundaryMarker =>
    let parts := splitOnSub body boundaryMarker
    if parts.length = 1 then
      let altParts := splitOnSub body (['-', '-'] ++ boundary)
      if altParts.length > 1 then altParts else parts
    else parts

/-- State of the per-part header/content scan (db/db.go:417-424). The
source's `contentStartIndex` variable is assigned but never read and is
omitted. -/
structure PartScanState where
  inPartHeaders : Bool
  isPlainText : Bool
  partHeaders : List (Str × Str)
  partContent : Str
  deriving DecidableEq, Repr

/-- One line of the per-part scan (db/db.go:426-461): in header mode a blank
line switches to content mode; a `name: value` line (colon not first) is
recorded, and a `content-type` whose value contains `text/plain` marks the
part as plain text; in content mode the line is appended to the content
builder with a `\n` after every line except the part's last. -/
def partScanStep (total : Nat) (st : PartScanState) (i : Nat) (line : Str) :
    PartScanState :=
  let lineTrimmed := trimSpace line
  if st.inPartHeaders then
    if lineTrimmed = [] then { st with inPartHeaders := false }
    else if containsChar line ':' then
      match indexOfChar? line ':' with
      | none => st
      | some colonIndex =>
        if 0 < colonIndex then
          let headerName := lowerStr (trimSpace (line.take colonIndex))
          let headerValue := trimSpace (line.drop (colonIndex + 1))
          let st2 := { st with partHeaders := setA st.partHeaders headerName headerValue }
          if headerName = ("content-type".toList) ∧
              containsSub (lowerStr headerValue) ("text/plain".toList) then
            { st2 with isPlainText := true }
          else st2
        else st
    else st
  else
    { st with partContent :=
        st.partContent ++ line ++ (if i < total - 1 then ['\n'] else []) }

/-- The indexed loop of the per-part scan (db/db.go:426-461). -/
def partScanGo (total : Nat) : Nat → List Str → PartScanState → PartScanState
  | _, [], st => st
  | i, line :: rest, st => partScanGo total (i + 1) rest (partScanStep total st i line)

/-- Scan of one candidate sub-part (db/db.go:416-461). -/
def partScan (part : Str) : PartScanState :=
  let partLines := splitOnSub part ['\n']
  partScanGo partLines.length 0 partLines ⟨true, false, [], []⟩

/-- Whether the per-part scan flags the part as `text/plain`
(db/db.go:445-448). -/
def partIsPlainText (part : Str) : Bool := (partScan part).isPlainText

/-- Cleanup of an extracted plain-text content (db/db.go:465-478): trim, strip
one trailing `--`, trim, strip one trailing boundary, trim, strip the three
line-break/boundary remnant markers, trim. -/
def cleanPlainText (boundary content : Str) : Str :=
  let p := trimSpace content
  let p := trimSuffixS p ['-', '-']
  let p := trimSpace p
  let p := trimSuffixS p boundary
  let p := trimSpace p
  let p := [['\r', '\n', '-', '-'] ++ boundary,
            ['\n', '-', '-'] ++ boundary,
            ['-', '-'] ++ boundary].foldl trimSuffixS p
  trimSpace p

/-- The part loop of `extractPlainTextFromMultipart` (db/db.go:406-492):
skip empty and closing-`--` segments; the first part whose scan is flagged
plain text with non-empty content returns its cleaned content; otherwise
continue, yielding `none` after the last part. -/
def findPlainTextPart (boundary : Str) : List Str → Option Str
  | [] => none
  | part :: rest =>
    let trimmedPart := trimSpace part
    if trimmedPart = [] ∨ trimmedPart = ['-', '-'] then
      findPlainTextPart boundary rest
    else
      let st := partScan part
      if st.isPlainText ∧ st.partContent ≠ [] then
        some (cleanPlainText boundary st.partContent)
      else findPlainTextPart boundary rest

/-- `extractPlainTextFromMultipart` (db/db.go:350-497): an empty boundary, a
missing marker, or the absence of a plain-text part all return the body
unchanged; otherwise the first plain-text part's cleaned content. -/
def extractPlainTextFromMultipart (body boundary : Str) : Str :=
  if boundary = [] then body
  else
    match findPlainTextPart boundary (partsOfBody body boundary) with
    | some plainText => plainText
    | none => body

/-- The multipart step of `StoreMessage` (db/db.go:207-289): when a boundary
is located, run the extraction and adopt its result only when it is non-empty
and differs from the original body (db.go:279-285); in every other case the
body is kept. -/
def applyMultipart (contentType bodyStr : Str) : Str :=
  match boundaryOfContentType contentType with
  | none => bodyStr
  | some boundary =>
    let plainTextBody := extractPlainTextFromMultipart bodyStr boundary
    if plainTextBody ≠ [] ∧ plainTextBody ≠ bodyStr then plainTextBody
    else bodyStr

/-- The full parse performed by `StoreMessage` (db/db.go:109-289): the
header/body split followed by the multipart step on the `content-type`
header (Go map read with zero-value default, db.go:208). -/
def goParse (raw : Str) : List (Str × Str) × Str :=
  let hb := goParseHeadersBody raw
  (hb.1, applyMultipart (getA hb.1 ("content-type".toList)) hb.2)

/-- State of the backend parser loop (mail.service.ts:347-350). -/
structure TsParseState where
  headers : List (Str × Str)
  currentHeader : Str
  inBody : Bool
  body : Str
  deriving DecidableEq, Repr

/-- One line of the backend `receiveEmail` parser (mail.service.ts:352-382):
before the body, a blank (after trim) line switches to body mode; a
space/tab-led line folds into `currentHeader` (JS `|| ''` default); a line
with a colon that is not the first character records a header, joining with
`", "` only when the existing value is truthy (i.e. non-empty); in body mode
the line plus `\n` is appended. -/
def tsParseLine (st : TsParseState) (line : Str) : TsParseState :=
  let trimmedLine := trimSpace line
  if st.inBody = false then
    if trimmedLine = [] then { st with inBody := true }
    else if startsWithS line [' '] || startsWithS line ['\t'] then
      if st.currentHeader ≠ [] then
        let folded := getA st.headers st.currentHeader ++ [' '] ++ trimmedLine
        { st with headers := setA st.headers st.currentHeader folded }
      else st
    else if containsChar line ':' then
      match indexOfChar? line ':' with
      | none => st
      | some colonIndex =>
        if 0 < colonIndex then
          let currentHeader := lowerStr (trimSpace (line.take colonIndex))
          let headerValue := trimSpace (line.drop (colonIndex + 1))
          let headers2 :=
            match lookupA st.headers currentHeader with
            | some v =>
              if v ≠ [] then
                setA st.headers currentHeader (v ++ [',', ' '] ++ headerValue)
              else setA st.headers currentHeader headerValue
            | none => setA st.headers currentHeader headerValue
          { st with currentHeader := currentHeader, headers := headers2 }
        else st
    else st
  else { st with body := st.body ++ line ++ ['\n'] }

/-- The backend `receiveEmail` parser (mail.service.ts:343-385): normalize
line endings, fold the line loop, and strip trailing whitespace from the
accumulated body (`trimEnd`, ts:385). -/
def tsParse (data : Str) : List (Str × Str) × Str :=
  let lines := linesOf data
  let st := lines.foldl tsParseLine ⟨[], [], false, []⟩
  (st.headers, trimRightSpace st.body)

/-- The class of header-block lines on which the two inbound parsers act
identically: a folded continuation line, or a `name: value` line whose first
colon is preceded by a name that (lower-cased, trimmed) is non-empty,
space-free and at most 50 characters, and followed by a value that trims to
something non-empty. -/
def goodHeaderLine (line : Str) : Bool :=
  startsWithS line [' '] || startsWithS line ['\t'] ||
    (match indexOfChar? line ':' with
     | none => false
     | some c =>
       decide (0 < c) &&
         (let nlow := lowerStr (trimSpace (line.take c))
          !nlow.isEmpty && !containsChar nlow ' ' && decide (nlow.length ≤ 50) &&
            !(trimSpace (line.drop (c + 1))).isEmpty))

/-- The body text accumulated by the body phase of the `StoreMessage` second
pass (db/db.go:196-202), starting at global line index `i` of `total` lines:
each line (stripped of trailing `\r`) followed by `\n` unless it is the
globally last line. -/
def bodyJoin (total : Nat) : Nat → List Str → Str
  | _, [] => []
  | i, l :: rest =>
    trimRightChar l '\r' ++ (if i < total - 1 then ['\n'] else []) ++
      bodyJoin total (i + 1) rest

/-- The body text accumulated by the backend parser's body phase
(mail.service.ts:380): every line followed by `\n`. -/
def tsBodyJoin : List Str → Str
  | [] => []
  | l :: rest => l ++ '\n' :: tsBodyJoin rest

/-- The coupling invariant between the Go header scan state and the backend
parser state while both are inside the header block: the backend is not yet
in body mode with an empty body, both hold the same headers and current
header, the current header (when set) is present with a non-empty value, and
every stored value is non-empty (which makes the JS truthiness test of
mail.service.ts:372 agree with the Go existence test of db/db.go:189). -/
def ParserInv (gst : GoParseState) (tst : TsParseState) : Prop :=
  tst.inBody = false ∧ tst.body = [] ∧ tst.headers = gst.headers ∧
  tst.currentHeader = gst.currentHeader ∧
  (gst.currentHeader ≠ [] →
    ∃ v, lookupA gst.headers gst.currentHeader = some v ∧ v ≠ []) ∧
  (∀ kv ∈ gst.headers, kv.2 ≠ [])

/-! ## Concrete inputs used by counterexamples and witnesses -/

/-- Two MX hosts with distinct preferences. -/
def mxPrimary : MXRecord := ⟨"mx1.example.com".toList, 10⟩

/-- See `mxPrimary`. -/
def mxSecondary : MXRecord := ⟨"mx2.example.com".toList, 20⟩

/-- Two MX hosts sharing one preference value. -/
def mxTieA : MXRecord := ⟨"a.example.com".toList, 10⟩

/-- See `mxTieA`. -/
def mxTieB : MXRecord := ⟨"b.example.com".toList, 10⟩

/-- An attempt oracle under which both hosts fail, the first with a timeout. -/
def attemptBothFailA : Str → HostAttempt := fun h =>
  if h = ("mx1.example.com".toList) then .dialErr ("i/o timeout".toList)
  else .dialErr ("connection refused".toList)

/-- An attempt oracle differing from `attemptBothFailA` only in the error the
first host fails with. -/
def attemptBothFailB : Str → HostAttempt := fun h =>
  if h = ("mx1.example.com".toList) then .dialErr ("connection reset".toList)
  else .dialErr ("connection refused".toList)

/-- A per-domain send oracle under which exactly `bad.com` fails. -/
def sendBadOnly : Str → List Str → DomainSendResult := fun d _ =>
  if d = ("bad.com".toList) then
    .allFailed ("bad.com".toList) 1 (some .smtpFailedNil)
  else .ok

/-- A directory in which exactly the usernames `a` and `c` exist, as the
API lookup. -/
def dirAC : Str → Except Str Bool := fun u =>
  .ok (u = ("a".toList) ∨ u = ("c".toList) : Bool)

/-- The same directory as `dirAC`, as the backend existence predicate. -/
def dirACb : Str → Bool := fun u =>
  (u = ("a".toList) ∨ u = ("c".toList) : Bool)

/-- A directory in which exactly the username `alice` exists. -/
def dirAlice : Str → Except Str Bool := fun u => .ok (u = ("alice".toList) : Bool)

/-- A directory lookup that always fails with a transport error. -/
def dirDown : Str → Except Str Bool := fun _ => .error ("connection refused".toList)

/-- A directory lookup that always reports non-existence. -/
def dirNobody : Str → Except Str Bool := fun _ => .ok false

/-- The `parts[0]` local part both inbound validators derive
(postsmtp/main.go:48-52, mail.service.ts:395). -/
def localPartOf (addr : Str) : Str := (splitOnSub addr ['@']).headD []

/-- The host actually dialed for an MX record (main.go:175: the record's host
with one trailing dot removed). -/
def hostOf (mx : MXRecord) : Str := trimSuffixS mx.host ['.']

/-- The `attemptedServers` entry for an MX record (main.go:177 records host
and priority). -/
def attemptEntry (mx : MXRecord) : Str × Nat := (hostOf mx, mx.pref)

/-- The `lastErr` value one attempt at an MX record leaves behind
(`none` when the attempt succeeds). -/
def attemptErrOf (attempt : Str → HostAttempt) (mx : MXRecord) :
    Option AttemptErr :=
  match attempt (hostOf mx) with
  | .dialErr e => some (.connectFailed (hostOf mx) e)
  | .smtpErr e => some (.smtpFailed e)
  | .nilConn => some .smtpFailedNil
  | .ok => none

/-- An attempt oracle: the primary host times out, every other host accepts. -/
def attemptSecondOk : Str → HostAttempt := fun h =>
  if h = ("mx1.example.com".toList) then .dialErr ("i/o timeout".toList) else .ok

/-- The fixed content-type text preceding a boundary declaration. -/
def ctPrefix : Str := "multipart/alternative; boundary=".toList

/-- A content-type header value declaring the boundary bare
(`boundary=X`). -/
def ctBare (X : Str) : Str := ctPrefix ++ X

/-- A content-type header value declaring the boundary quoted
(`boundary="X"`). -/
def ctQuoted (X : Str) : Str := ctPrefix ++ ['"'] ++ X ++ ['"']

/-- A content-type header value declaring the boundary escaped-quoted
(`boundary=\"X\"`). -/
def ctEscQuoted (X : Str) : Str := ctPrefix ++ ['\\', '"'] ++ X ++ ['\\', '"']

/-- Characters of a boundary value on which the three declaration forms can
agree: no whitespace, quote, backslash, semicolon or comma (each of which is
a delimiter for at least one of the three parsing branches of
db/db.go:239-274). -/
def goodBoundaryChar (c : Char) : Bool :=
  !(isSpaceChar c) && !(c = '"') && !(c = '\\') && !(c = ';') && !(c = ',')

/-! ## Library lemmas about the string model -/

theorem containsChar_cons (a : Char) (l : Str) (c : Char) :
    containsChar (a :: l) c = (c == a || containsChar l c) := by
  simp only [containsChar, containsSub, indexOfSub?, List.isPrefixOf, Bool.and_true]
  cases h : c == a <;> simp [h]

theorem containsChar_nil (c : Char) : containsChar [] c = false := rfl

theorem containsChar_eq_false_iff (s : Str) (c : Char) :
    containsChar s c = false ↔ ∀ x ∈ s, x ≠ c := by
  induction s with
  | nil => simp [containsChar_nil]
  | cons a l ih =>
    rw [containsChar_cons]
    constructor
    · intro h
      rcases Bool.or_eq_false_iff.mp h with ⟨h1, h2⟩
      intro x hx
      rcases List.mem_cons.mp hx with rfl | hx2
      · intro hc; subst hc; simp at h1
      · exact (ih.mp h2) x hx2
    · intro h
      apply Bool.or_eq_false_iff.mpr
      constructor
      · have := h a (List.mem_cons_self a l)
        simp [beq_eq_false_iff_ne]
        exact fun hc => this hc.symm
      · exact ih.mpr (fun x hx => h x (List.mem_cons_of_mem a hx))

theorem splitGo_no_sep (c : Char) :
    ∀ (fuel : Nat) (s acc : Str), s.length ≤ fuel → containsChar s c = false →
      splitGo fuel s [c] acc = [acc.reverse ++ s] := by
  intro fuel
  induction fuel with
  | zero =>
    intro s acc hlen _
    have : s = [] := List.length_eq_zero.mp (Nat.le_zero.mp hlen)
    subst this
    simp [splitGo]
  | succ n ih =>
    intro s acc hlen hc
    match s with
    | [] => simp [splitGo]
    | a :: r =>
      have hne : ¬ a = c := by
        have := (containsChar_eq_false_iff _ c).mp hc a (List.mem_cons_self a r)
        exact this
      have hpre : List.isPrefixOf [c] (a :: r) = false := by
        simp [List.isPrefixOf, Bool.and_true, beq_eq_false_iff_ne]
        exact fun h => hne h.symm
      have hcr : containsChar r c = false := by
        rw [containsChar_eq_false_iff]
        intro x hx
        exact (containsChar_eq_false_iff _ c).mp hc x (List.mem_cons_of_mem a hx)
      have hlen2 : r.length ≤ n := by simpa using hlen
      simp only [splitGo, hpre, Bool.false_eq_true, if_false]
      rw [ih r (a :: acc) hlen2 hcr]
      simp

theorem splitOnSub_single_no_sep (s : Str) (c : Char)
    (h : containsChar s c = false) : splitOnSub s [c] = [s] := by
  unfold splitOnSub
  simp only [List.isEmpty, if_false]
  have := splitGo_no_sep c s.length s [] (Nat.le_refl _) h
  simpa using this

theorem splitGo_ne_nil :
    ∀ (fuel : Nat) (s sep acc : Str), splitGo fuel s sep acc ≠ [] := by
  intro fuel
  induction fuel with
  | zero => intro s sep acc; simp [splitGo]
  | succ n ih =>
    intro s sep acc
    match s with
    | [] => simp [splitGo]
    | a :: r =>
      simp only [splitGo]
      split
      · simp
      · exact ih r sep (a :: acc)

theorem splitOnSub_ne_nil (s sep : Str) (hsep : sep ≠ []) :
    splitOnSub s sep ≠ [] := by
  unfold splitOnSub
  have : sep.isEmpty = false := by
    cases sep with
    | nil => exact absurd rfl hsep
    | cons a r => rfl
  rw [this]
  simp only [Bool.false_eq_true, if_false]
  exact splitGo_ne_nil s.length s sep []

theorem splitOnSub_length_pos (s sep : Str) (hsep : sep ≠ []) :
    0 < (splitOnSub s sep).length :=
  List.length_pos.mpr (splitOnSub_ne_nil s sep hsep)

theorem getLast?_getD_cons {α : Type} (a : α) (l : List α) (d : α) :
    ((a :: l).getLast?).getD d = (l.getLast?).getD a := by
  cases l with
  | nil => simp
  | cons b m =>
    rw [List.getLast?_cons_cons]
    obtain ⟨x, hx⟩ := Option.isSome_iff_exists.mp
      (List.getLast?_isSome.mpr (List.cons_ne_nil b m))
    simp [hx]

/-! ## Claim C3 — lookup failure vs non-existence -/

/-- C3 counterexample. The claim says the recipient-existence check
propagates a lookup error to its caller and returns `false` only when the
directory affirmatively reports non-existence. In the code,
`ValidateRecipient` (db/db.go:82-94) returns a bare `false` when the query
itself fails, which is exactly the value it returns for affirmative
non-existence, so the two cases are indistinguishable to the caller. -/
theorem validateRecipient_conflates_error_and_absence :
    validateRecipientDB dirDown ("nouser".toList) = false ∧
    validateRecipientDB dirNobody ("nouser".toList) = false ∧
    validateRecipientDB dirDown ("nouser".toList) =
      validateRecipientDB dirNobody ("nouser".toList) :=
  ⟨rfl, rfl, rfl⟩

/-- C3 amended: for every username, both `ValidateRecipient` (db/db.go:82-94)
and the `EmailExistsChecker` handler (postsmtp/main.go:138-153) map a failing
directory lookup to a plain `false` (the error is only logged), making a
lookup failure indistinguishable from affirmative non-existence. -/
theorem lookup_error_returns_false : ∀ (u e : Str),
    validateRecipientDB (fun _ => .error e) u = false ∧
    emailExistsCheckerApi (fun _ => .error e) u = false ∧
    validateRecipientDB (fun _ => .error e) u =
      validateRecipientDB (fun _ => .ok false) u := by
  intro u e
  refine ⟨rfl, ?_, rfl⟩
  simp only [emailExistsCheckerApi]
  split <;> rfl

/-! ## Claim C7 — addresses without `@` -/

/-- C7 counterexample. The claim says an address with no `@` is invalid and
never deliverable. In the code the `len(parts) == 0` guard of
`EmailExistsChecker` (postsmtp/main.go:140-144) is dead — `strings.Split`
always returns at least one element — so the entire address is used as the
username, and the directory answer for it is returned: for `alice` with user
`alice` existing, the checker reports deliverable. -/
theorem no_at_address_can_be_deliverable :
    emailExistsCheckerApi dirAlice ("alice".toList) = true ∧
    containsChar ("alice".toList) '@' = false := by
  exact ⟨by decide, by decide⟩

/-- C7 amended: for an address without `@`, `EmailExistsChecker`
(postsmtp/main.go:138-153) does not reject; it passes the whole address
string to the directory (the split yields the single segment `[email]`) and
returns the directory's verdict, with a lookup error mapped to `false`. -/
theorem no_at_address_uses_whole_string (vu : Str → Except Str Bool)
    (email : Str) (h : containsChar email '@' = false) :
    emailExistsCheckerApi vu email =
      (match vu email with | .ok b => b | .error _ => false) := by
  unfold emailExistsCheckerApi
  rw [splitOnSub_single_no_sep email '@' h]
  cases hv : vu email <;> simp [hv]

/-- Witness for `no_at_address_uses_whole_string` at the concrete address
`bob` (no `@`), where the directory knows only `alice`. -/
theorem no_at_address_uses_whole_string_witness :
    emailExistsCheckerApi dirAlice ("bob".toList) = false :=
  no_at_address_uses_whole_string dirAlice ("bob".toList) (by decide)

/-! ## Claims C4 and C5 — the per-domain candidate loop -/

theorem tryServers_cons (attempt : Str → HostAttempt) (mx : MXRecord)
    (rest : List MXRecord) (acc : List (Str × Nat)) (le : Option AttemptErr) :
    tryServers attempt (mx :: rest) acc le =
      match attempt (hostOf mx) with
      | .dialErr e => tryServers attempt rest (acc ++ [attemptEntry mx])
          (some (.connectFailed (hostOf mx) e))
      | .smtpErr e => tryServers attempt rest (acc ++ [attemptEntry mx])
          (some (.smtpFailed e))
      | .nilConn => tryServers attempt rest (acc ++ [attemptEntry mx])
          (some .smtpFailedNil)
      | .ok => (acc ++ [attemptEntry mx], .success (hostOf mx)) := rfl

theorem tryServers_all_fail (attempt : Str → HostAttempt) :
    ∀ (recs : List MXRecord) (acc : List (Str × Nat)) (le : Option AttemptErr),
      (∀ mx ∈ recs, attempt (hostOf mx) ≠ .ok) →
      tryServers attempt recs acc le =
        (acc ++ recs.map attemptEntry,
         .exhausted (((recs.map (attemptErrOf attempt)).getLast?).getD le)) := by
  intro recs
  induction recs with
  | nil => intro acc le _; simp [tryServers]
  | cons mx rest ih =>
    intro acc le hfail
    have hmx := hfail mx (List.mem_cons_self mx rest)
    have hrest : ∀ m ∈ rest, attempt (hostOf m) ≠ .ok :=
      fun m hm => hfail m (List.mem_cons_of_mem mx hm)
    rw [List.map_cons, List.map_cons, getLast?_getD_cons, tryServers_cons]
    cases h : attempt (hostOf mx) with
    | ok => exact absurd h hmx
    | dialErr e =>
      dsimp only
      rw [ih (acc ++ [attemptEntry mx])
        (some (.connectFailed (hostOf mx) e)) hrest]
      simp [attemptErrOf, h]
    | smtpErr e =>
      dsimp only
      rw [ih (acc ++ [attemptEntry mx]) (some (.smtpFailed e)) hrest]
      simp [attemptErrOf, h]
    | nilConn =>
      dsimp only
      rw [ih (acc ++ [attemptEntry mx]) (some .smtpFailedNil) hrest]
      simp [attemptErrOf, h]

theorem tryServers_first_success (attempt : Str → HostAttempt) :
    ∀ (pre : List MXRecord) (mx : MXRecord) (post : List MXRecord)
      (acc : List (Str × Nat)) (le : Option AttemptErr),
      (∀ m ∈ pre, attempt (hostOf m) ≠ .ok) → attempt (hostOf mx) = .ok →
      tryServers attempt (pre ++ mx :: post) acc le =
        (acc ++ pre.map attemptEntry ++ [attemptEntry mx],
         .success (hostOf mx)) := by
  intro pre
  induction pre with
  | nil =>
    intro mx post acc le _ hmx
    rw [List.nil_append, tryServers_cons, hmx]
    dsimp only
    simp
  | cons m rest ih =>
    intro mx post acc le hpre hmx
    have hm := hpre m (List.mem_cons_self m rest)
    have hrest : ∀ x ∈ rest, attempt (hostOf x) ≠ .ok :=
      fun x hx => hpre x (List.mem_cons_of_mem m hx)
    rw [List.cons_append, tryServers_cons]
    cases h : attempt (hostOf m) with
    | ok => exact absurd h hm
    | dialErr e =>
      dsimp only
      rw [ih mx post (acc ++ [attemptEntry m])
        (some (.connectFailed (hostOf m) e)) hrest hmx]
      simp
    | smtpErr e =>
      dsimp only
      rw [ih mx post (acc ++ [attemptEntry m]) (some (.smtpFailed e)) hrest hmx]
      simp
    | nilConn =>
      dsimp only
      rw [ih mx post (acc ++ [attemptEntry m]) (some .smtpFailedNil) hrest hmx]
      simp

/-- C4: the candidate loop of `sendToDomain` (main.go:174-280) tries the
sorted candidates strictly in list order; every failing host before the first
success — connect failure, SMTP-session failure, or nil session — is recorded
in `attemptedServers` and the next candidate is tried; the first host whose
session succeeds ends the loop with success via that host, with no later
candidate attempted (the attempt log is exactly the failing prefix plus the
succeeding host). -/
theorem delivery_tries_hosts_in_order_until_success
    (attempt : Str → HostAttempt) (pre post : List MXRecord) (mx : MXRecord)
    (hpre : ∀ m ∈ pre, attempt (hostOf m) ≠ .ok)
    (hmx : attempt (hostOf mx) = .ok) :
    tryServers attempt (pre ++ mx :: post) [] none =
      (pre.map attemptEntry ++ [attemptEntry mx], .success (hostOf mx)) := by
  rw [tryServers_first_success attempt pre mx post [] none hpre hmx]
  simp

/-- Witness: with the primary host timing out and the secondary accepting,
the loop records exactly `mx1` then `mx2` and succeeds via `mx2`. -/
theorem delivery_tries_hosts_in_order_until_success_witness :
    tryServers attemptSecondOk ([mxPrimary] ++ mxSecondary :: []) [] none =
      ([mxPrimary].map attemptEntry ++ [attemptEntry mxSecondary],
       .success (hostOf mxSecondary)) :=
  delivery_tries_hosts_in_order_until_success attemptSecondOk
    [mxPrimary] [] mxSecondary (by decide) (by decide)

/-- C5 counterexample. The claim says an exhausted domain returns every host
tried together with each host's individual error. The value `sendToDomain`
actually returns (main.go:285-286) carries only the domain, the candidate
count and `lastErr`: two runs in which the FIRST host fails with different
errors produce identical return values, so the first host's error is not
carried — only the last one's. -/
theorem exhausted_failure_forgets_earlier_errors :
    sendToDomainTry attemptBothFailA ("example.com".toList)
        [mxPrimary, mxSecondary] =
      sendToDomainTry attemptBothFailB ("example.com".toList)
        [mxPrimary, mxSecondary] ∧
    attemptBothFailA (hostOf mxPrimary) ≠ attemptBothFailB (hostOf mxPrimary) := by
  exact ⟨by decide, by decide⟩

/-- C5 amended: when every candidate of a domain fails, `sendToDomain`
(main.go:282-287) returns a failure carrying the domain, the total number of
MX candidates, and the LAST host's error only; the full per-host attempt list
exists only in the log (`attemptedServers`, without per-host errors), not in
the returned value. -/
theorem exhausted_failure_carries_last_error
    (attempt : Str → HostAttempt) (domain : Str) (recs : List MXRecord)
    (hfail : ∀ mx ∈ recs, attempt (hostOf mx) ≠ .ok) :
    sendToDomainTry attempt domain recs =
      .allFailed domain recs.length
        (((recs.map (attemptErrOf attempt)).getLast?).getD none) := by
  unfold sendToDomainTry
  rw [tryServers_all_fail attempt recs [] none hfail]

/-- Witness for `exhausted_failure_carries_last_error`: both hosts fail with
connect errors; the returned failure carries the second host's error. -/
theorem exhausted_failure_carries_last_error_witness :
    sendToDomainTry attemptBothFailA ("example.com".toList)
        [mxPrimary, mxSecondary] =
      .allFailed ("example.com".toList) 2
        ((([mxPrimary, mxSecondary].map (attemptErrOf attemptBothFailA)).getLast?).getD none) :=
  exhausted_failure_carries_last_error attemptBothFailA ("example.com".toList)
    [mxPrimary, mxSecondary] (by decide)

/-! ## Claim C1 — multi-domain orchestration -/

theorem runDomains_all_ok (send : Str → List Str → DomainSendResult) :
    ∀ (groups : List (Str × List Str)) (acc : List Str),
      (∀ g ∈ groups, send g.1 g.2 = .ok) →
      runDomains send groups acc = .sentAll (acc ++ groups.map Prod.fst) := by
  intro groups
  induction groups with
  | nil => intro acc _; simp [runDomains]
  | cons g rest ih =>
    intro acc hok
    obtain ⟨d, rs⟩ := g
    have hg : send d rs = .ok := hok (d, rs) (List.mem_cons_self _ _)
    simp only [runDomains, hg, if_pos rfl]
    rw [ih (acc ++ [d]) (fun x hx => hok x (List.mem_cons_of_mem _ hx))]
    simp

theorem runDomains_first_fail (send : Str → List Str → DomainSendResult) :
    ∀ (pre : List (Str × List Str)) (d : Str) (rs : List Str)
      (post : List (Str × List Str)) (acc : List Str),
      (∀ g ∈ pre, send g.1 g.2 = .ok) → send d rs ≠ .ok →
      runDomains send (pre ++ (d, rs) :: post) acc =
        .domainFailed d (send d rs) (acc ++ pre.map Prod.fst ++ [d]) := by
  intro pre
  induction pre with
  | nil =>
    intro d rs post acc _ hfail
    simp only [List.nil_append, runDomains, if_neg hfail]
    simp
  | cons g rest ih =>
    intro d rs post acc hok hfail
    obtain ⟨d2, rs2⟩ := g
    have hg : send d2 rs2 = .ok := hok (d2, rs2) (List.mem_cons_self _ _)
    rw [List.cons_append]
    simp only [runDomains]
    rw [if_pos hg, ih d rs post (acc ++ [d2])
      (fun x hx => hok x (List.mem_cons_of_mem _ hx)) hfail]
    simp

/-- C1 counterexample. The claim says a failing domain does not prevent the
remaining domains from being attempted and that `Send` aggregates one outcome
per domain. In `main` (main.go:107-112) the first domain whose `sendToDomain`
returns an error terminates the whole process via `log.Fatalf`: sending to
`u@bad.com` and `v@good.com` where `bad.com` fails, the run ends having
attempted only `bad.com` — `good.com` is never attempted and no per-domain
outcome map exists. -/
theorem failing_domain_aborts_remaining_domains :
    mainSend sendBadOnly ("sender@x.com".toList)
        [("u@bad.com".toList)] [] [("v@good.com".toList)] =
      .domainFailed ("bad.com".toList)
        (.allFailed ("bad.com".toList) 1 (some .smtpFailedNil))
        [("bad.com".toList)] ∧
    ("good.com".toList) ∉ [("bad.com".toList)] := by
  exact ⟨by decide, by decide⟩

/-- C1 amended: the per-domain loop of `main` (main.go:107-112) attempts
domains sequentially in iteration order and terminates the process at the
first domain whose `sendToDomain` errs, with exactly the earlier (successful)
domains and the failing one attempted; only when every domain succeeds are
all domains attempted. No per-domain outcome map is aggregated — the run
ends either in one domain's fatal error or in overall success. -/
theorem send_stops_at_first_failing_domain :
    (∀ (send : Str → List Str → DomainSendResult)
       (pre : List (Str × List Str)) (d : Str) (rs : List Str)
       (post : List (Str × List Str)),
       (∀ g ∈ pre, send g.1 g.2 = .ok) → send d rs ≠ .ok →
       runDomains send (pre ++ (d, rs) :: post) [] =
         .domainFailed d (send d rs) (pre.map Prod.fst ++ [d])) ∧
    (∀ (send : Str → List Str → DomainSendResult)
       (groups : List (Str × List Str)),
       (∀ g ∈ groups, send g.1 g.2 = .ok) →
       runDomains send groups [] = .sentAll (groups.map Prod.fst)) := by
  constructor
  · intro send pre d rs post hok hfail
    rw [runDomains_first_fail send pre d rs post [] hok hfail]
    simp
  · intro send groups hok
    rw [runDomains_all_ok send groups [] hok]
    simp

/-- Witness for `send_stops_at_first_failing_domain`: one healthy domain
before the failing one — the healthy domain is attempted, the failing one
fatal, the (absent) rest untouched. -/
theorem send_stops_at_first_failing_domain_witness :
    runDomains sendBadOnly
        ([(("good.com".toList), [("v@good.com".toList)])] ++
          (("bad.com".toList), [("u@bad.com".toList)]) ::
            [(("late.com".toList), [("w@late.com".toList)])]) [] =
      .domainFailed ("bad.com".toList)
        (sendBadOnly ("bad.com".toList) [("u@bad.com".toList)])
        ([(("good.com".toList), [("v@good.com".toList)])].map Prod.fst ++
          [("bad.com".toList)]) :=
  send_stops_at_first_failing_domain.1 sendBadOnly
    [(("good.com".toList), [("v@good.com".toList)])]
    ("bad.com".toList) [("u@bad.com".toList)]
    [(("late.com".toList), [("w@late.com".toList)])]
    (by decide) (by decide)

/-! ## Claim C6 — MX candidate ordering -/

/-- C6 counterexample. The claim says equal-preference candidates keep the
resolver-provided order (a stable sort). `sort.Slice` (main.go:130-132) is
documented as not stable: its contract admits, for the resolver order
`[a,b]` with equal preference 10, the output `[b,a]`, which `resolveMX`
therefore also admits — and that output differs from the spec's stable
ordering. -/
theorem resolve_tie_order_not_stable :
    resolveMX ("example.com".toList) (.ok [mxTieA, mxTieB])
      (.candidates [mxTieB, mxTieA]) ∧
    stableSortByPref [mxTieA, mxTieB] = [mxTieA, mxTieB] ∧
    ([mxTieB, mxTieA] : List MXRecord) ≠ [mxTieA, mxTieB] := by
  refine ⟨?_, by decide, by decide⟩
  simp only [resolveMX, if_neg (by decide : ¬([mxTieA, mxTieB] : List MXRecord) = [])]
  exact ⟨[mxTieB, mxTieA],
    ⟨List.Perm.swap mxTieA mxTieB [], by decide⟩, rfl⟩

/-- C6 amended: `resolveMX` (main.go:119-132) propagates DNS errors, turns an
empty record list into the "no MX records" error, and otherwise yields a
permutation of the resolver's records that is ordered ascending by
preference; the relative order of equal-preference candidates is NOT
specified (Go's `sort.Slice` is not guaranteed stable). -/
theorem resolve_orders_by_preference :
    (∀ (d e : Str) (out : ResolveOut),
       resolveMX d (.error e) out → out = .dnsErr d e) ∧
    (∀ (d : Str) (out : ResolveOut),
       resolveMX d (.ok []) out → out = .noRecords d) ∧
    (∀ (d : Str) (recs l : List MXRecord),
       resolveMX d (.ok recs) (.candidates l) →
       l.Perm recs ∧ l.Sorted (fun a b => a.pref ≤ b.pref)) := by
  refine ⟨?_, ?_, ?_⟩
  · intro d e out h; exact h
  · intro d out h; simpa [resolveMX] using h
  · intro d recs l h
    simp only [resolveMX] at h
    by_cases hr : recs = []
    · subst hr; simp at h
    · rw [if_neg hr] at h
      obtain ⟨l2, hsort, heq⟩ := h
      cases heq
      exact ⟨hsort.1, hsort.2⟩

/-- Witness for `resolve_orders_by_preference`: a two-record resolution with
distinct preferences, sorted ascending. -/
theorem resolve_orders_by_preference_witness :
    ([mxPrimary, mxSecondary] : List MXRecord).Perm [mxSecondary, mxPrimary] ∧
    List.Sorted (fun a b => a.pref ≤ b.pref)
      ([mxPrimary, mxSecondary] : List MXRecord) :=
  resolve_orders_by_preference.2.2 ("example.com".toList)
    [mxSecondary, mxPrimary] [mxPrimary, mxSecondary]
    (by
      simp only [resolveMX,
        if_neg (by decide : ¬([mxSecondary, mxPrimary] : List MXRecord) = [])]
      exact ⟨[mxPrimary, mxSecondary],
        ⟨List.Perm.swap mxSecondary mxPrimary [], by decide⟩, rfl⟩)

/-! ## Claim C2 — per-recipient isolation on intake -/

theorem validateAllApi_none_of (vu : Str → Except Str Bool) :
    ∀ (l : List Str), (∀ r ∈ l, vu (localPartOf r) = .ok true) →
      validateAllApi vu l = none := by
  intro l
  induction l with
  | nil => intro _; rfl
  | cons r rest ih =>
    intro h
    have hr : vu (localPartOf r) = .ok true := h r (List.mem_cons_self _ _)
    have hlen : ¬ (splitOnSub r ['@']).length = 0 := by
      have := splitOnSub_length_pos r ['@'] (by simp)
      omega
    simp only [validateAllApi, if_neg hlen, localPartOf] at hr ⊢
    rw [hr]
    exact ih (fun x hx => h x (List.mem_cons_of_mem _ hx))

theorem validateAllApi_isSome_of (vu : Str → Except Str Bool) :
    ∀ (l : List Str) (r : Str), r ∈ l → vu (localPartOf r) ≠ .ok true →
      (validateAllApi vu l).isSome = true := by
  intro l
  induction l with
  | nil => intro r hr; exact absurd hr (List.not_mem_nil r)
  | cons a rest ih =>
    intro r hr hbad
    have hlen : ¬ (splitOnSub a ['@']).length = 0 := by
      have := splitOnSub_length_pos a ['@'] (by simp)
      omega
    simp only [validateAllApi, if_neg hlen]
    cases hv : vu ((splitOnSub a ['@']).headD []) with
    | error e => rfl
    | ok b =>
      cases b with
      | false => rfl
      | true =>
        rcases List.mem_cons.mp hr with rfl | hmem
        · exact absurd hv (by simpa [localPartOf] using hbad)
        · exact ih r hmem hbad

theorem tsValidateAll_none_of (ue : Str → Bool) :
    ∀ (l : List Str), (∀ r ∈ l, containsChar r '@' = true) →
      (∀ r ∈ l, ue (localPartOf r) = true) → tsValidateAll ue l = none := by
  intro l
  induction l with
  | nil => intro _ _; rfl
  | cons r rest ih =>
    intro hat hue
    have h1 : containsChar r '@' = true := hat r (List.mem_cons_self _ _)
    have h2 : ue (localPartOf r) = true := hue r (List.mem_cons_self _ _)
    simp only [tsValidateAll, h1, localPartOf] at h2 ⊢
    simp only [h2]
    simp only [Bool.true_eq_false, if_false]
    exact ih (fun x hx => hat x (List.mem_cons_of_mem _ hx))
      (fun x hx => hue x (List.mem_cons_of_mem _ hx))

/-- C2 counterexample. The claim says an envelope with 3 recipients of which
1 is invalid stores exactly 2 records and does not fail the transaction. In
the code, `HandleMessage` (postsmtp/main.go:44-70) returns an error for the
whole transaction as soon as ANY recipient fails validation, before any
storage call: with recipients `a@x`, `b@x`, `c@x` and only `a`, `c`
existing, zero records are stored and the transaction fails. -/
theorem one_invalid_recipient_fails_whole_transaction :
    (acceptApi dirAC dirACb
        [("a@x".toList), ("b@x".toList), ("c@x".toList)]).1.length = 0 ∧
    (acceptApi dirAC dirACb
        [("a@x".toList), ("b@x".toList), ("c@x".toList)]).2 =
      some (.userNotFound ("b".toList)) := by
  exact ⟨by decide, by decide⟩

/-- C2 amended: intake is all-or-nothing. If any recipient fails the API
validation, `HandleMessage` (postsmtp/main.go:46-62) errors with zero
storage writes; only when every recipient validates (and, in the backend
re-validation of mail.service.ts:387-402, contains `@` and exists) does the
pipeline store, and then it stores exactly one record per recipient of the
envelope. -/
theorem accept_stores_all_or_nothing :
    (∀ (vu : Str → Except Str Bool) (ue : Str → Bool) (rcptTo : List Str)
       (r : Str), r ∈ rcptTo → vu (localPartOf r) ≠ .ok true →
       (acceptApi vu ue rcptTo).1 = [] ∧ (acceptApi vu ue rcptTo).2 ≠ none) ∧
    (∀ (vu : Str → Except Str Bool) (ue : Str → Bool) (rcptTo : List Str),
       rcptTo ≠ [] →
       (∀ r ∈ rcptTo, vu (localPartOf r) = .ok true) →
       (∀ r ∈ rcptTo, containsChar r '@' = true) →
       (∀ r ∈ rcptTo, ue (localPartOf r) = true) →
       acceptApi vu ue rcptTo =
         ((List.range rcptTo.length).zip rcptTo, none)) := by
  constructor
  · intro vu ue rcptTo r hr hbad
    have hsome := validateAllApi_isSome_of vu rcptTo r hr hbad
    obtain ⟨e, he⟩ := Option.isSome_iff_exists.mp hsome
    simp [acceptApi, he]
  · intro vu ue rcptTo hne hvu hat hue
    have h1 := validateAllApi_none_of vu rcptTo hvu
    have h2 := tsValidateAll_none_of ue rcptTo hat hue
    have hlen : ¬ ((List.range rcptTo.length).zip rcptTo).length = 0 := by
      simp only [List.length_zip, List.length_range, Nat.min_self]
      exact fun h => hne (List.length_eq_zero.mp h)
    simp only [acceptApi, tsReceiveEmailStores, h1, h2, if_neg hlen]

/-- Witness for `accept_stores_all_or_nothing`: with both recipients valid,
exactly one record per recipient is stored. -/
theorem accept_stores_all_or_nothing_witness :
    acceptApi dirAC dirACb [("a@x".toList), ("c@x".toList)] =
      ((List.range ([("a@x".toList), ("c@x".toList)] : List Str).length).zip
        [("a@x".toList), ("c@x".toList)], none) :=
  accept_stores_all_or_nothing.2 dirAC dirACb
    [("a@x".toList), ("c@x".toList)]
    (by decide) (by intro r hr; fin_cases hr <;> rfl)
    (by decide) (by decide)

/-! ## Claim C8 — multipart without a plain-text part -/

theorem findPlainTextPart_none (boundary : Str) :
    ∀ (parts : List Str), (∀ p ∈ parts, partIsPlainText p = false) →
      findPlainTextPart boundary parts = none := by
  intro parts
  induction parts with
  | nil => intro _; rfl
  | cons part rest ih =>
    intro h
    have hp : partIsPlainText part = false := h part (List.mem_cons_self _ _)
    have hrest := ih (fun x hx => h x (List.mem_cons_of_mem _ hx))
    simp only [findPlainTextPart]
    split
    · exact hrest
    · rw [if_neg ?_]
      · exact hrest
      · intro hcontra
        rw [partIsPlainText] at hp
        exact absurd hcontra.1 (by simp [hp])

theorem extractPlainText_id_of_no_plain (body boundary : Str)
    (h : ∀ p ∈ partsOfBody body boundary, partIsPlainText p = false) :
    extractPlainTextFromMultipart body boundary = body := by
  unfold extractPlainTextFromMultipart
  split
  · rfl
  · rw [findPlainTextPart_none boundary (partsOfBody body boundary) h]

/-- C8: for a message whose merged `content-type` makes `StoreMessage` run
the multipart step but whose body has no `text/plain` sub-part (no candidate
part's scan flags `text/plain`), the stored body is exactly the raw body text
of the header/body split — the multipart step is a total function with no
error path, and every no-plain-part input returns the body unchanged
(db/db.go:279-285, 494-496). -/
theorem multipart_without_plain_keeps_body (raw : Str)
    (h : ∀ b, boundaryOfContentType
        (getA (goParseHeadersBody raw).1 ("content-type".toList)) = some b →
      ∀ part ∈ partsOfBody (goParseHeadersBody raw).2 b,
        partIsPlainText part = false) :
    goParse raw = goParseHeadersBody raw := by
  have happ : ∀ (ct body : Str),
      (∀ b, boundaryOfContentType ct = some b →
        ∀ p ∈ partsOfBody body b, partIsPlainText p = false) →
      applyMultipart ct body = body := by
    intro ct body hctb
    unfold applyMultipart
    cases hb : boundaryOfContentType ct with
    | none => rfl
    | some b =>
      dsimp only
      rw [extractPlainText_id_of_no_plain body b (hctb b hb)]
      simp
  simp only [goParse]
  rw [happ _ _ h]

/-- Witness for `multipart_without_plain_keeps_body`: a multipart message
whose only sub-part is `text/html`. -/
theorem multipart_without_plain_keeps_body_witness :
    goParse (("Content-Type: multipart/alternative; boundary=abc\r\n\r\n--abc\ncontent-type: text/html\n\n<b>x</b>\n--abc--").toList) =
      goParseHeadersBody (("Content-Type: multipart/alternative; boundary=abc\r\n\r\n--abc\ncontent-type: text/html\n\n<b>x</b>\n--abc--").toList) :=
  multipart_without_plain_keeps_body _ (by
    intro b hb
    rw [show boundaryOfContentType
        (getA (goParseHeadersBody (("Content-Type: multipart/alternative; boundary=abc\r\n\r\n--abc\ncontent-type: text/html\n\n<b>x</b>\n--abc--").toList)).1
          ("content-type".toList)) = some ("abc".toList) from rfl] at hb
    cases hb
    decide)

/-! ## Claim C9 — boundary declaration forms -/

theorem isPrefixOf_self (l : Str) : l.isPrefixOf l = true := by
  induction l with
  | nil => rfl
  | cons a r ih => simp [List.isPrefixOf, ih]

theorem isPrefixOf_append_of_le (pat : Str) :
    ∀ (s w : Str), pat.length ≤ s.length →
      pat.isPrefixOf (s ++ w) = pat.isPrefixOf s := by
  induction pat with
  | nil => intro s w _; cases s <;> simp [List.isPrefixOf]
  | cons a pr ih =>
    intro s w hlen
    cases s with
    | nil => simp at hlen
    | cons b s2 =>
      simp only [List.cons_append, List.isPrefixOf]
      rw [show s2.append w = s2 ++ w from rfl, ih s2 w (by simpa using hlen)]

theorem indexOfSub?_of_isPrefixOf (s pat : Str) (h : pat.isPrefixOf s = true) :
    indexOfSub? s pat = some 0 := by
  cases s with
  | nil => unfold indexOfSub?; rw [if_pos h]
  | cons c r => unfold indexOfSub?; rw [if_pos h]

theorem indexOfSub?_append_of_found (pat : Str) :
    ∀ (a : Str) (p : Nat) (w : Str), indexOfSub? a pat = some p →
      p + pat.length ≤ a.length → indexOfSub? (a ++ w) pat = some p := by
  intro a
  induction a with
  | nil =>
    intro p w hfind hfit
    cases pat with
    | cons x xs => simp [indexOfSub?, List.isPrefixOf] at hfind
    | nil =>
      have hp : p = 0 := by
        simpa [indexOfSub?, List.isPrefixOf] using hfind.symm
      subst hp
      simp only [List.nil_append]
      exact indexOfSub?_of_isPrefixOf w [] (by cases w <;> rfl)
  | cons c r ih =>
    intro p w hfind hfit
    simp only [indexOfSub?] at hfind
    by_cases hp : pat.isPrefixOf (c :: r) = true
    · rw [if_pos hp] at hfind
      cases hfind
      have hfit2 : pat.length ≤ (c :: r).length := by simpa using hfit
      have : pat.isPrefixOf ((c :: r) ++ w) = true := by
        rw [isPrefixOf_append_of_le pat (c :: r) w hfit2]; exact hp
      exact indexOfSub?_of_isPrefixOf _ _ this
    · rw [if_neg hp] at hfind
      obtain ⟨q, hq, rfl⟩ := Option.map_eq_some'.mp hfind
      have hfitq : q + pat.length ≤ r.length := by
        simp only [List.length_cons] at hfit; omega
      have hfit2 : pat.length ≤ (c :: r).length := by
        simp only [List.length_cons]; omega
      have hpre2 : pat.isPrefixOf ((c :: r) ++ w) = false := by
        rw [isPrefixOf_append_of_le pat (c :: r) w hfit2]
        exact eq_false_of_ne_true hp
      show indexOfSub? (c :: (r ++ w)) pat = some (q + 1)
      simp only [indexOfSub?]
      rw [show (c :: (r ++ w)) = ((c :: r) ++ w) from rfl, hpre2]
      simp only [Bool.false_eq_true, if_false]
      rw [ih q w hq hfitq]
      rfl

theorem indexOfSub?_at_junction (p0 : Char) (pr t : Str) :
    ∀ (X : Str), (∀ c ∈ X, c ≠ p0) →
      indexOfSub? (X ++ (p0 :: pr) ++ t) (p0 :: pr) = some X.length := by
  intro X
  induction X with
  | nil =>
    intro _
    apply indexOfSub?_of_isPrefixOf
    rw [List.nil_append,
      isPrefixOf_append_of_le (p0 :: pr) (p0 :: pr) t (Nat.le_refl _)]
    exact isPrefixOf_self _
  | cons x X2 ih =>
    intro h
    have hx : ¬ x = p0 := fun he => h x (List.mem_cons_self _ _) he
    have hpre : (p0 :: pr).isPrefixOf ((x :: X2) ++ (p0 :: pr) ++ t) = false := by
      simp only [List.cons_append, List.isPrefixOf, Bool.and_eq_false_iff]
      left
      exact beq_eq_false_iff_ne.mpr (fun he => hx he.symm)
    show indexOfSub? ((x :: X2) ++ (p0 :: pr) ++ t) (p0 :: pr) = some (X2.length + 1)
    simp only [List.cons_append, indexOfSub?, List.append_eq]
    rw [show x :: ((X2 ++ (p0 :: pr)) ++ t) = (x :: X2) ++ (p0 :: pr) ++ t by simp,
      hpre]
    simp only [Bool.false_eq_true, if_false]
    rw [show (X2 ++ (p0 :: pr)) ++ t = X2 ++ (p0 :: pr) ++ t from rfl,
      ih (fun c hc => h c (List.mem_cons_of_mem _ hc))]
    rfl

theorem trimLeftSpace_eq_self (s : Str) (h : ∀ c ∈ s, isSpaceChar c = false) :
    trimLeftSpace s = s := by
  cases s with
  | nil => rfl
  | cons c r =>
    simp only [trimLeftSpace, h c (List.mem_cons_self _ _), Bool.false_eq_true,
      if_false]

theorem trimSpace_eq_self (s : Str) (h : ∀ c ∈ s, isSpaceChar c = false) :
    trimSpace s = s := by
  unfold trimSpace trimRightSpace
  rw [trimLeftSpace_eq_self s h,
    trimLeftSpace_eq_self s.reverse (fun c hc => h c (List.mem_reverse.mp hc)),
    List.reverse_reverse]

theorem dropWhile_id_of_all (p : Char → Bool) (s : Str)
    (h : ∀ c ∈ s, p c = false) : s.dropWhile p = s := by
  cases s with
  | nil => rfl
  | cons c r =>
    rw [List.dropWhile_cons, if_neg (by simp [h c (List.mem_cons_self _ _)])]

theorem trimCharBoth_eq_self (s : Str) (cut : List Char)
    (h : ∀ c ∈ s, cut.contains c = false) : trimCharBoth s cut = s := by
  unfold trimCharBoth
  rw [dropWhile_id_of_all _ s h,
    dropWhile_id_of_all _ s.reverse (fun c hc => h c (List.mem_reverse.mp hc)),
    List.reverse_reverse]

theorem replGo_no_head (p0 : Char) (pr rep : Str) :
    ∀ (fuel : Nat) (s : Str), (∀ c ∈ s, c ≠ p0) →
      replGo fuel s (p0 :: pr) rep = s := by
  intro fuel
  induction fuel with
  | zero => intro s _; rfl
  | succ n ih =>
    intro s h
    cases s with
    | nil => rfl
    | cons c r =>
      have hc : ¬ c = p0 := h c (List.mem_cons_self _ _)
      have hpre : (p0 :: pr).isPrefixOf (c :: r) = false := by
        simp only [List.isPrefixOf, Bool.and_eq_false_iff]
        left
        exact beq_eq_false_iff_ne.mpr (fun he => hc he.symm)
      simp only [replGo, hpre, Bool.false_eq_true, if_false]
      rw [ih r (fun x hx => h x (List.mem_cons_of_mem _ hx))]

theorem replaceAllSub_no_head (s : Str) (p0 : Char) (pr rep : Str)
    (h : ∀ c ∈ s, c ≠ p0) : replaceAllSub s (p0 :: pr) rep = s := by
  unfold replaceAllSub
  exact replGo_no_head p0 pr rep s.length s h

theorem containsChar_append (a b : Str) (c : Char) :
    containsChar (a ++ b) c = (containsChar a c || containsChar b c) := by
  induction a with
  | nil => simp [containsChar_nil]
  | cons x r ih => simp [containsChar_cons, ih, Bool.or_assoc]

theorem indexOfChar?_eq_none (s : Str) (c : Char)
    (h : ∀ x ∈ s, x ≠ c) : indexOfChar? s c = none := by
  have hfalse : containsChar s c = false := containsChar_eq_false_iff s c |>.mpr h
  unfold containsChar containsSub at hfalse
  exact Option.not_isSome_iff_eq_none.mp (by simp [indexOfChar?, hfalse])

theorem startsWithS_cons_ne (x : Char) (r : Str) (p0 : Char) (pr : Str)
    (h : ¬ x = p0) : startsWithS (x :: r) (p0 :: pr) = false := by
  simp only [startsWithS, List.isPrefixOf, Bool.and_eq_false_iff]
  left
  exact beq_eq_false_iff_ne.mpr (fun he => h he.symm)

theorem good_chars (X : Str) (hgood : ∀ c ∈ X, goodBoundaryChar c = true)
    (c : Char) (hc : c ∈ X) :
    isSpaceChar c = false ∧ c ≠ '"' ∧ c ≠ '\\' ∧ c ≠ ';' ∧ c ≠ ',' := by
  have h := hgood c hc
  simp only [goodBoundaryChar, Bool.and_eq_true, Bool.not_eq_true',
    decide_eq_false_iff_not] at h
  exact ⟨h.1.1.1.1, h.1.1.1.2, h.1.1.2, h.1.2, h.2⟩

theorem not_space_chars (c : Char) (h : isSpaceChar c = false) :
    c ≠ ' ' ∧ c ≠ '\t' ∧ c ≠ '\n' ∧ c ≠ '\r' := by
  refine ⟨?_, ?_, ?_, ?_⟩ <;> (intro he; subst he; simp [isSpaceChar] at h)

theorem boundaryCleanup_id (X : Str)
    (hgood : ∀ c ∈ X, goodBoundaryChar c = true) :
    replaceAllSub (replaceAllSub (trimCharBoth X ['"'])
      ['\\', '"'] ['"']) ['\\', '\\'] ['\\'] = X := by
  rw [trimCharBoth_eq_self X ['"'] (fun c hc => by
    have := (good_chars X hgood c hc).2.1
    simp [List.contains, beq_eq_false_iff_ne, this])]
  rw [replaceAllSub_no_head X '\\' ['"'] ['"']
    (fun c hc => (good_chars X hgood c hc).2.2.1)]
  rw [replaceAllSub_no_head X '\\' ['\\'] ['\\']
    (fun c hc => (good_chars X hgood c hc).2.2.1)]

theorem parseBoundary_bare (X : Str) (hne : X ≠ [])
    (hgood : ∀ c ∈ X, goodBoundaryChar c = true) :
    parseBoundaryValue X = X := by
  obtain ⟨x, X2, rfl⟩ : ∃ x X2, X = x :: X2 := by
    cases X with
    | nil => exact absurd rfl hne
    | cons a b => exact ⟨a, b, rfl⟩
  have hspace : ∀ c ∈ x :: X2, isSpaceChar c = false :=
    fun c hc => (good_chars _ hgood c hc).1
  have hx := good_chars _ hgood x (List.mem_cons_self _ _)
  have htrim := trimSpace_eq_self _ hspace
  have hsw1 : startsWithS (x :: X2) ['\\', '"'] = false :=
    startsWithS_cons_ne x X2 '\\' ['"'] hx.2.2.1
  have hsw2 : startsWithS (x :: X2) ['"'] = false :=
    startsWithS_cons_ne x X2 '"' [] hx.2.1
  have hsemi : indexOfChar? (x :: X2) ';' = none :=
    indexOfChar?_eq_none _ _ (fun c hc => (good_chars _ hgood c hc).2.2.2.1)
  have hcomma : indexOfChar? (x :: X2) ',' = none :=
    indexOfChar?_eq_none _ _ (fun c hc => (good_chars _ hgood c hc).2.2.2.2)
  have hsp : indexOfChar? (x :: X2) ' ' = none :=
    indexOfChar?_eq_none _ _ (fun c hc =>
      (not_space_chars c (hspace c hc)).1)
  have htab : indexOfChar? (x :: X2) '\t' = none :=
    indexOfChar?_eq_none _ _ (fun c hc =>
      (not_space_chars c (hspace c hc)).2.1)
  have hnl : indexOfChar? (x :: X2) '\n' = none :=
    indexOfChar?_eq_none _ _ (fun c hc =>
      (not_space_chars c (hspace c hc)).2.2.1)
  have hcr : indexOfChar? (x :: X2) '\r' = none :=
    indexOfChar?_eq_none _ _ (fun c hc =>
      (not_space_chars c (hspace c hc)).2.2.2)
  simp only [parseBoundaryValue, htrim, hsw1, hsw2, Bool.false_eq_true,
    if_false, List.foldl_cons, List.foldl_nil, hsemi, hcomma, hsp, htab, hnl,
    hcr, lt_irrefl]
  exact boundaryCleanup_id _ hgood

theorem parseBoundary_quoted (X : Str)
    (hgood : ∀ c ∈ X, goodBoundaryChar c = true) :
    parseBoundaryValue ('"' :: (X ++ ['"'])) = X := by
  have hsAll : ∀ c ∈ '"' :: (X ++ ['"']), isSpaceChar c = false := by
    intro c hc
    rcases List.mem_cons.mp hc with rfl | hc2
    · rfl
    rcases List.mem_append.mp hc2 with hc3 | hc4
    · exact (good_chars X hgood c hc3).1
    · simp at hc4; subst hc4; rfl
  have htrim := trimSpace_eq_self _ hsAll
  have hsw1 : startsWithS ('"' :: (X ++ ['"'])) ['\\', '"'] = false :=
    startsWithS_cons_ne _ _ _ _ (by decide)
  have hsw2 : startsWithS ('"' :: (X ++ ['"'])) ['"'] = true := by
    simp [startsWithS, List.isPrefixOf]
  have hjunction : indexOfSub? (X ++ ['"']) ['"'] = some X.length := by
    have := indexOfSub?_at_junction '"' [] [] X
      (fun c hc => (good_chars X hgood c hc).2.1)
    simpa using this
  simp only [parseBoundaryValue, htrim, hsw1, hsw2, Bool.false_eq_true,
    if_false, if_true, List.drop_succ_cons, List.drop_zero, hjunction]
  rw [List.take_left X ['"'],
    trimSpace_eq_self X (fun c hc => (good_chars X hgood c hc).1)]
  exact boundaryCleanup_id X hgood

theorem parseBoundary_escQuoted (X : Str)
    (hgood : ∀ c ∈ X, goodBoundaryChar c = true) :
    parseBoundaryValue ('\\' :: '"' :: (X ++ ['\\', '"'])) = X := by
  have hsAll : ∀ c ∈ '\\' :: '"' :: (X ++ ['\\', '"']), isSpaceChar c = false := by
    intro c hc
    rcases List.mem_cons.mp hc with rfl | hc2
    · rfl
    rcases List.mem_cons.mp hc2 with rfl | hc3
    · rfl
    rcases List.mem_append.mp hc3 with hc4 | hc5
    · exact (good_chars X hgood c hc4).1
    · rcases List.mem_cons.mp hc5 with rfl | hc6
      · rfl
      · simp at hc6; subst hc6; rfl
  have htrim := trimSpace_eq_self _ hsAll
  have hsw1 : startsWithS ('\\' :: '"' :: (X ++ ['\\', '"'])) ['\\', '"'] = true := by
    simp [startsWithS, List.isPrefixOf]
  have hjunction : indexOfSub? (X ++ ['\\', '"']) ['\\', '"'] = some X.length := by
    have := indexOfSub?_at_junction '\\' ['"'] [] X
      (fun c hc => (good_chars X hgood c hc).2.2.1)
    simpa using this
  simp only [parseBoundaryValue, htrim, hsw1, if_true,
    List.drop_succ_cons, List.drop_zero, hjunction]
  rw [List.take_left X ['\\', '"'],
    trimSpace_eq_self X (fun c hc => (good_chars X hgood c hc).1)]
  exact boundaryCleanup_id X hgood

theorem boundaryOfContentType_ctHead (w : Str) (hw : ∀ c ∈ w, c ≠ ',') :
    boundaryOfContentType (ctPrefix ++ w) = some (parseBoundaryValue w) := by
  have hne : ctPrefix ++ w ≠ [] := by
    rw [show ctPrefix = 'm' :: ("ultipart/alternative; boundary=".toList) from rfl]
    simp
  have hlowfix : lowerStr ctPrefix = ctPrefix := rfl
  have hlow : lowerStr (ctPrefix ++ w) = ctPrefix ++ lowerStr w := by
    unfold lowerStr
    rw [List.map_append]
    rfl
  have hmulti : containsSub (lowerStr (ctPrefix ++ w))
      ("multipart".toList) = true := by
    rw [hlow]
    unfold containsSub
    rw [indexOfSub?_of_isPrefixOf]
    · rfl
    · rw [isPrefixOf_append_of_le _ ctPrefix (lowerStr w) (by decide)]
      rfl
  have hcomma : indexOfChar? (ctPrefix ++ w) ',' = none := by
    apply indexOfChar?_eq_none
    intro x hx
    rcases List.mem_append.mp hx with h1 | h2
    · have hfix : ∀ c ∈ ctPrefix, c ≠ ',' := by decide
      exact hfix x h1
    · exact hw x h2
  have hbs : indexOfSub? (lowerStr (ctPrefix ++ w))
      ("boundary=".toList) = some 23 := by
    rw [hlow]
    exact indexOfSub?_append_of_found _ ctPrefix 23 (lowerStr w) rfl (by decide)
  have hdrop : (ctPrefix ++ w).drop (23 + 9) = w := by
    rw [show (23 + 9 : Nat) = ctPrefix.length from rfl]
    exact List.drop_left ctPrefix w
  unfold boundaryOfContentType
  rw [if_pos (And.intro hne hmulti)]
  simp only [hcomma, hbs, hdrop]

theorem boundaryOf_ctBare (X : Str) (hne : X ≠ [])
    (hgood : ∀ c ∈ X, goodBoundaryChar c = true) :
    boundaryOfContentType (ctBare X) = some X := by
  unfold ctBare
  rw [boundaryOfContentType_ctHead X
    (fun c hc => (good_chars X hgood c hc).2.2.2.2),
    parseBoundary_bare X hne hgood]

theorem boundaryOf_ctQuoted (X : Str)
    (hgood : ∀ c ∈ X, goodBoundaryChar c = true) :
    boundaryOfContentType (ctQuoted X) = some X := by
  unfold ctQuoted
  rw [show ctPrefix ++ ['"'] ++ X ++ ['"'] =
    ctPrefix ++ ('"' :: (X ++ ['"'])) by simp]
  rw [boundaryOfContentType_ctHead _ (by
    intro c hc
    rcases List.mem_cons.mp hc with rfl | hc2
    · decide
    rcases List.mem_append.mp hc2 with hc3 | hc4
    · exact (good_chars X hgood c hc3).2.2.2.2
    · simp at hc4; subst hc4; decide)]
  rw [parseBoundary_quoted X hgood]

theorem boundaryOf_ctEscQuoted (X : Str)
    (hgood : ∀ c ∈ X, goodBoundaryChar c = true) :
    boundaryOfContentType (ctEscQuoted X) = some X := by
  unfold ctEscQuoted
  rw [show ctPrefix ++ ['\\', '"'] ++ X ++ ['\\', '"'] =
    ctPrefix ++ ('\\' :: '"' :: (X ++ ['\\', '"'])) by simp]
  rw [boundaryOfContentType_ctHead _ (by
    intro c hc
    rcases List.mem_cons.mp hc with rfl | hc2
    · decide
    rcases List.mem_cons.mp hc2 with rfl | hc3
    · decide
    rcases List.mem_append.mp hc3 with hc4 | hc5
    · exact (good_chars X hgood c hc4).2.2.2.2
    · rcases List.mem_cons.mp hc5 with rfl | hc6
      · decide
      · simp at hc6; subst hc6; decide)]
  rw [parseBoundary_escQuoted X hgood]

/-- C9 counterexample. The claim quantifies over every boundary value X. For
X = `a b` (a space, legal in a MIME boundary), the bare declaration is cut at
the space (db/db.go:256-268) and yields boundary `a`, while the quoted form
yields `a b`; on a body whose parts are delimited by `--a b` the two
declarations extract different plain-text contents. -/
theorem boundary_forms_differ_on_space :
    applyMultipart (ctQuoted ("a b".toList))
        (("--a b\ncontent-type: text/plain\n\nHELLO\n--a b--").toList) =
      ("HELLO\n--".toList) ∧
    applyMultipart (ctBare ("a b".toList))
        (("--a b\ncontent-type: text/plain\n\nHELLO\n--a b--").toList) =
      ("HELLO".toList) ∧
    ("HELLO\n--".toList) ≠ ("HELLO".toList) := by
  exact ⟨by decide, by decide, by decide⟩

/-- C9 amended: restricted to non-empty boundary values whose characters are
none of the delimiter characters (whitespace, quote, backslash, semicolon,
comma), the three declaration forms — bare, quoted, escaped-quoted — are all
recognized and unescaped to the same boundary string X (db/db.go:230-274),
and `Parse` consequently yields the same body on every multipart input. -/
theorem boundary_forms_agree_on_clean_values (X : Str) (hne : X ≠ [])
    (hgood : ∀ c ∈ X, goodBoundaryChar c = true) (body : Str) :
    boundaryOfContentType (ctBare X) = some X ∧
    boundaryOfContentType (ctQuoted X) = some X ∧
    boundaryOfContentType (ctEscQuoted X) = some X ∧
    applyMultipart (ctQuoted X) body = applyMultipart (ctBare X) body ∧
    applyMultipart (ctEscQuoted X) body = applyMultipart (ctBare X) body := by
  have h1 := boundaryOf_ctBare X hne hgood
  have h2 := boundaryOf_ctQuoted X hgood
  have h3 := boundaryOf_ctEscQuoted X hgood
  refine ⟨h1, h2, h3, ?_, ?_⟩
  · unfold applyMultipart
    rw [h1, h2]
  · unfold applyMultipart
    rw [h1, h3]

/-- Witness for `boundary_forms_agree_on_clean_values` at X = `abc` on a
two-part multipart body. -/
theorem boundary_forms_agree_on_clean_values_witness :
    boundaryOfContentType (ctBare ("abc".toList)) = some ("abc".toList) ∧
    boundaryOfContentType (ctQuoted ("abc".toList)) = some ("abc".toList) ∧
    boundaryOfContentType (ctEscQuoted ("abc".toList)) = some ("abc".toList) ∧
    applyMultipart (ctQuoted ("abc".toList))
        (("--abc\ncontent-type: text/plain\n\nHI\n--abc--").toList) =
      applyMultipart (ctBare ("abc".toList))
        (("--abc\ncontent-type: text/plain\n\nHI\n--abc--").toList) ∧
    applyMultipart (ctEscQuoted ("abc".toList))
        (("--abc\ncontent-type: text/plain\n\nHI\n--abc--").toList) =
      applyMultipart (ctBare ("abc".toList))
        (("--abc\ncontent-type: text/plain\n\nHI\n--abc--").toList) :=
  boundary_forms_agree_on_clean_values ("abc".toList) (by decide) (by decide)
    (("--abc\ncontent-type: text/plain\n\nHI\n--abc--").toList)

/-! ## Claim C10 — the two inbound parsers -/

/-- C10 counterexample. On an input with no blank separator line, the Go
parser's `headerEndIndex` stays `-1`, so every line lands in the body and no
header is parsed (db/db.go:123-203), while the backend parser never enters
body mode and parses every line as a header (mail.service.ts:352-382): on
`From: a@b` the two produce different headers and different bodies. -/
theorem parsers_disagree_without_separator :
    goParseHeadersBody ("From: a@b".toList) = ([], ("From: a@b".toList)) ∧
    tsParse ("From: a@b".toList) =
      ([(("from".toList), ("a@b".toList))], []) ∧
    goParseHeadersBody ("From: a@b".toList) ≠ tsParse ("From: a@b".toList) := by
  exact ⟨by decide, by decide, by decide⟩

theorem replGo_single_removes (γ : Char) (rep : Str) (hrep : γ ∉ rep) :
    ∀ (fuel : Nat) (s : Str), s.length ≤ fuel →
      γ ∉ replGo fuel s [γ] rep := by
  intro fuel
  induction fuel with
  | zero =>
    intro s hlen
    have : s = [] := List.length_eq_zero.mp (Nat.le_zero.mp hlen)
    subst this
    simp [replGo]
  | succ n ih =>
    intro s hlen
    cases s with
    | nil => simp [replGo]
    | cons c r =>
      have hlen2 : r.length ≤ n := by simpa using hlen
      by_cases hc : γ = c
      · subst hc
        have hpre : ([γ] : Str).isPrefixOf (γ :: r) = true := by
          simp [List.isPrefixOf]
        simp only [replGo, hpre, if_true, List.drop_succ_cons, List.drop_zero]
        intro hmem
        rcases List.mem_append.mp hmem with h1 | h2
        · exact hrep h1
        · exact ih r hlen2 h2
      · have hpre : ([γ] : Str).isPrefixOf (c :: r) = false := by
          simp [List.isPrefixOf, beq_eq_false_iff_ne]
          exact hc
        simp only [replGo, hpre, Bool.false_eq_true, if_false]
        intro hmem
        rcases List.mem_cons.mp hmem with rfl | h2
        · exact hc rfl
        · exact ih r hlen2 h2

theorem normalize_no_cr (s : Str) : '\r' ∉ normalizeNewlines s := by
  unfold normalizeNewlines replaceAllSub
  simp only [List.isEmpty, Bool.false_eq_true, if_false]
  exact replGo_single_removes '\r' ['\n'] (by decide) _ _ (Nat.le_refl _)

theorem splitGo_chars :
    ∀ (fuel : Nat) (s sep acc : Str) (l : Str), l ∈ splitGo fuel s sep acc →
      ∀ c ∈ l, c ∈ s ∨ c ∈ acc := by
  intro fuel
  induction fuel with
  | zero =>
    intro s sep acc l hl c hc
    simp only [splitGo, List.mem_singleton] at hl
    subst hl
    exact Or.inr (List.mem_reverse.mp hc)
  | succ n ih =>
    intro s sep acc l hl c hc
    cases s with
    | nil =>
      simp only [splitGo, List.mem_singleton] at hl
      subst hl
      exact Or.inr (List.mem_reverse.mp hc)
    | cons a r =>
      simp only [splitGo] at hl
      split at hl
      · rcases List.mem_cons.mp hl with rfl | hl2
        · exact Or.inr (List.mem_reverse.mp hc)
        · rcases ih _ _ _ _ hl2 c hc with h1 | h2
          · exact Or.inl (List.mem_of_mem_drop h1)
          · exact absurd h2 (List.not_mem_nil c)
      · rcases ih _ _ _ _ hl c hc with h1 | h2
        · exact Or.inl (List.mem_cons_of_mem a h1)
        · rcases List.mem_cons.mp h2 with rfl | h3
          · exact Or.inl (List.mem_cons_self _ _)
          · exact Or.inr h3

theorem linesOf_no_cr (raw : Str) :
    ∀ l ∈ linesOf raw, ∀ c ∈ l, c ≠ '\r' := by
  intro l hl c hc he
  subst he
  unfold linesOf splitOnSub at hl
  simp only [List.isEmpty, Bool.false_eq_true, if_false] at hl
  rcases splitGo_chars _ _ _ _ l hl '\r' hc with h1 | h2
  · exact normalize_no_cr raw h1
  · exact List.not_mem_nil '\r' h2

theorem trimRightChar_eq_self (l : Str) (c : Char) (h : ∀ x ∈ l, x ≠ c) :
    trimRightChar l c = l := by
  unfold trimRightChar
  rw [dropWhile_id_of_all _ l.reverse (fun x hx => by
    simp [h x (List.mem_reverse.mp hx)]), List.reverse_reverse]

theorem lookupA_setA_self (m : List (Str × Str)) (k v : Str) :
    lookupA (setA m k v) k = some v := by
  induction m with
  | nil => simp [setA, lookupA]
  | cons kv r ih =>
    obtain ⟨k2, v2⟩ := kv
    by_cases hk : k2 = k
    · subst hk; simp [setA, lookupA]
    · simp [setA, lookupA, hk, ih]

theorem mem_setA (m : List (Str × Str)) (k v : Str) :
    ∀ kv ∈ setA m k v, kv.2 = v ∨ kv ∈ m := by
  induction m with
  | nil =>
    intro kv hkv
    simp only [setA, List.mem_singleton] at hkv
    subst hkv
    exact Or.inl rfl
  | cons e r ih =>
    obtain ⟨k2, v2⟩ := e
    intro kv hkv
    by_cases hk : k2 = k
    · subst hk
      simp only [setA, if_pos rfl] at hkv
      rcases List.mem_cons.mp hkv with rfl | h2
      · exact Or.inl rfl
      · exact Or.inr (List.mem_cons_of_mem _ h2)
    · simp only [setA, if_neg hk] at hkv
      rcases List.mem_cons.mp hkv with rfl | h2
      · exact Or.inr (List.mem_cons_self _ _)
      · rcases ih kv h2 with h3 | h4
        · exact Or.inl h3
        · exact Or.inr (List.mem_cons_of_mem _ h4)

theorem trimRightSpace_append_space (x : Str) (γ : Char)
    (h : isSpaceChar γ = true) :
    trimRightSpace (x ++ [γ]) = trimRightSpace x := by
  unfold trimRightSpace
  rw [List.reverse_append]
  simp only [List.reverse_singleton, List.singleton_append, trimLeftSpace, h,
    if_true]
  simp

theorem findIdx?_separator (p : Str → Bool) (blank : Str) (post : List Str)
    (hblank : p blank = true) :
    ∀ (pre : List Str) (i : Nat), (∀ l ∈ pre, p l = false) →
      List.findIdx? p (pre ++ blank :: post) i = some (i + pre.length) := by
  intro pre
  induction pre with
  | nil =>
    intro i _
    rw [List.nil_append, List.findIdx?_cons, if_pos hblank]
    simp
  | cons a r ih =>
    intro i h
    rw [List.cons_append, List.findIdx?_cons,
      if_neg (by simp [h a (List.mem_cons_self _ _)]),
      ih (i + 1) (fun x hx => h x (List.mem_cons_of_mem _ hx))]
    simp only [List.length_cons]
    congr 1
    omega

theorem goScan_cons (sep : Int) (total : Nat) (i : Nat) (line : Str)
    (rest : List Str) (st : GoParseState) (body : Str) :
    goScan sep total i (line :: rest) st body =
      if (i : Int) ≤ sep then
        if (i : Int) = sep then goScan sep total (i + 1) rest st body
        else goScan sep total (i + 1) rest
          (goHeaderLine st (trimRightChar line '\r')) body
      else
        goScan sep total (i + 1) rest st
          (body ++ trimRightChar line '\r' ++
            (if i < total - 1 then ['\n'] else [])) := rfl

theorem goScan_pre_phase (total : Nat) :
    ∀ (preL : List Str) (i : Nat) (rest2 : List Str) (st : GoParseState)
      (body : Str),
      goScan ((i + preL.length : Nat) : Int) total i (preL ++ rest2) st body =
        goScan ((i + preL.length : Nat) : Int) total (i + preL.length) rest2
          (preL.foldl (fun s l => goHeaderLine s (trimRightChar l '\r')) st)
          body := by
  intro preL
  induction preL with
  | nil => intro i rest2 st body; simp
  | cons l preL2 ih =>
    intro i rest2 st body
    rw [show i + (l :: preL2).length = (i + 1) + preL2.length by
      simp [List.length_cons]; omega]
    rw [List.cons_append, goScan_cons,
      if_pos (by push_cast; omega),
      if_neg (by push_cast; omega),
      List.foldl_cons]
    exact ih (i + 1) rest2 (goHeaderLine st (trimRightChar l '\r')) body

theorem goScan_body_phase (total : Nat) :
    ∀ (post : List Str) (i : Nat) (st : GoParseState) (body : Str)
      (sep : Int), sep < (i : Int) →
      goScan sep total i post st body = (st, body ++ bodyJoin total i post) := by
  intro post
  induction post with
  | nil => intro i st body sep _; simp [goScan, bodyJoin]
  | cons l rest ih =>
    intro i st body sep hlt
    rw [goScan_cons, if_neg (by omega),
      ih (i + 1) st _ sep (by push_cast; omega)]
    simp [bodyJoin, List.append_assoc]

theorem tsBodyJoin_eq_bodyJoin (post : List Str) :
    ∀ (i total : Nat), i + post.length = total →
      (∀ l ∈ post, trimRightChar l '\r' = l) → post ≠ [] →
      tsBodyJoin post = bodyJoin total i post ++ ['\n'] := by
  induction post with
  | nil => intro i total _ _ hne; exact absurd rfl hne
  | cons l rest ih =>
    intro i total htot hcr _
    have hl : trimRightChar l '\r' = l := hcr l (List.mem_cons_self _ _)
    by_cases hr : rest = []
    · subst hr
      simp only [List.length_cons, List.length_nil] at htot
      have : ¬ i < total - 1 := by omega
      simp [tsBodyJoin, bodyJoin, hl, this]
    · have htot2 : (i + 1) + rest.length = total := by
        simp only [List.length_cons] at htot; omega
      have hlt : i < total - 1 := by
        have : 0 < rest.length := List.length_pos.mpr hr
        omega
      rw [show tsBodyJoin (l :: rest) = l ++ '\n' :: tsBodyJoin rest from rfl,
        ih (i + 1) total htot2 (fun x hx => hcr x (List.mem_cons_of_mem _ hx)) hr]
      simp [bodyJoin, hl, hlt]

theorem trimRight_tsBodyJoin (post : List Str) (i total : Nat)
    (htot : i + post.length = total)
    (hcr : ∀ l ∈ post, trimRightChar l '\r' = l) :
    trimRightSpace (tsBodyJoin post) = trimRightSpace (bodyJoin total i post) := by
  by_cases hp : post = []
  · subst hp; rfl
  · rw [tsBodyJoin_eq_bodyJoin post i total htot hcr hp,
      trimRightSpace_append_space _ '\n' rfl]

theorem tsFold_body_phase :
    ∀ (post : List Str) (st : TsParseState), st.inBody = true →
      post.foldl tsParseLine st = { st with body := st.body ++ tsBodyJoin post } := by
  intro post
  induction post with
  | nil => intro st _; simp [tsBodyJoin]
  | cons l rest ih =>
    intro st hin
    rw [List.foldl_cons]
    have hstep : tsParseLine st l = { st with body := st.body ++ l ++ ['\n'] } := by
      unfold tsParseLine
      rw [if_neg (by simp [hin])]
    rw [hstep, ih _ (by simpa using hin)]
    simp [tsBodyJoin, List.append_assoc]

theorem tsParseLine_blank (st : TsParseState) (blank : Str)
    (h : st.inBody = false) (hb : trimSpace blank = []) :
    tsParseLine st blank = { st with inBody := true } := by
  unfold tsParseLine
  rw [if_pos (by simp [h]), if_pos hb]

theorem goHeaderLine_cont (gst : GoParseState) (l : Str)
    (hnb : trimSpace l ≠ [])
    (hsp : (startsWithS l [' '] || startsWithS l ['\t']) = true) :
    goHeaderLine gst l =
      if gst.currentHeader ≠ [] then
        { gst with headers := setA gst.headers gst.currentHeader (getA gst.headers gst.currentHeader ++ [' '] ++ trimSpace l) }
      else gst := by
  simp only [goHeaderLine]
  rw [if_neg hnb, if_pos hsp]

theorem tsParseLine_cont (tst : TsParseState) (l : Str)
    (hib : tst.inBody = false) (hnb : trimSpace l ≠ [])
    (hsp : (startsWithS l [' '] || startsWithS l ['\t']) = true) :
    tsParseLine tst l =
      if tst.currentHeader ≠ [] then
        { tst with headers := setA tst.headers tst.currentHeader (getA tst.headers tst.currentHeader ++ [' '] ++ trimSpace l) }
      else tst := by
  simp only [tsParseLine]
  rw [if_pos (by rw [hib]), if_neg hnb, if_pos hsp]

theorem goHeaderLine_colon (gst : GoParseState) (l : Str) (cidx : Nat)
    (hnb : trimSpace l ≠ [])
    (hA : startsWithS l [' '] = false) (hB : startsWithS l ['\t'] = false)
    (hidx : indexOfChar? l ':' = some cidx)
    (hcond : 0 < cidx ∧ cidx < l.length - 1)
    (hne : lowerStr (trimSpace (l.take cidx)) ≠ [])
    (hnsp : containsChar (lowerStr (trimSpace (l.take cidx))) ' ' = false)
    (h50 : ¬ (lowerStr (trimSpace (l.take cidx))).length > 50) :
    goHeaderLine gst l =
      { currentHeader := lowerStr (trimSpace (l.take cidx)),
        headers :=
          match lookupA gst.headers (lowerStr (trimSpace (l.take cidx))) with
          | some existingValue =>
            setA gst.headers (lowerStr (trimSpace (l.take cidx)))
              (existingValue ++ [',', ' '] ++ trimSpace (l.drop (cidx + 1)))
          | none =>
            setA gst.headers (lowerStr (trimSpace (l.take cidx)))
              (trimSpace (l.drop (cidx + 1))) } := by
  have hcont : containsChar l ':' = true := by
    unfold indexOfChar? at hidx
    unfold containsChar containsSub
    rw [hidx]
    rfl
  simp only [goHeaderLine, hidx]
  rw [if_neg hnb, if_neg (by simp [hA, hB]), if_pos hcont, if_pos hcond,
    if_neg hne, if_neg (by simp [hnsp]), if_neg h50]

theorem tsParseLine_colon (tst : TsParseState) (l : Str) (cidx : Nat)
    (hib : tst.inBody = false) (hnb : trimSpace l ≠ [])
    (hA : startsWithS l [' '] = false) (hB : startsWithS l ['\t'] = false)
    (hidx : indexOfChar? l ':' = some cidx) (h0 : 0 < cidx) :
    tsParseLine tst l =
      { tst with
        currentHeader := lowerStr (trimSpace (l.take cidx)),
        headers :=
          match lookupA tst.headers (lowerStr (trimSpace (l.take cidx))) with
          | some v =>
            if v ≠ [] then
              setA tst.headers (lowerStr (trimSpace (l.take cidx)))
                (v ++ [',', ' '] ++ trimSpace (l.drop (cidx + 1)))
            else
              setA tst.headers (lowerStr (trimSpace (l.take cidx)))
                (trimSpace (l.drop (cidx + 1)))
          | none =>
            setA tst.headers (lowerStr (trimSpace (l.take cidx)))
              (trimSpace (l.drop (cidx + 1))) } := by
  have hcont : containsChar l ':' = true := by
    unfold indexOfChar? at hidx
    unfold containsChar containsSub
    rw [hidx]
    rfl
  simp only [tsParseLine, hidx]
  rw [if_pos (by rw [hib]), if_neg hnb, if_neg (by simp [hA, hB]),
    if_pos hcont, if_pos h0]

theorem lookupA_mem (m : List (Str × Str)) (k v : Str)
    (h : lookupA m k = some v) : (k, v) ∈ m := by
  induction m with
  | nil => simp [lookupA] at h
  | cons e r ih =>
    obtain ⟨k2, v2⟩ := e
    by_cases hk : k2 = k
    · subst hk
      simp only [lookupA, if_true] at h
      cases h
      exact List.mem_cons_self _ _
    · simp only [lookupA, if_neg hk] at h
      exact List.mem_cons_of_mem _ (ih h)

theorem good_line_step (gst : GoParseState) (tst : TsParseState)
    (hInv : ParserInv gst tst) (l : Str) (hnb : trimSpace l ≠ [])
    (hgl : goodHeaderLine l = true) :
    ParserInv (goHeaderLine gst l) (tsParseLine tst l) := by
  obtain ⟨hib, hbody, hhdrs, hcur, hcurlook, hvals⟩ := hInv
  by_cases hsp : (startsWithS l [' '] || startsWithS l ['\t']) = true
  · -- continuation line: both sides fold identically
    rw [goHeaderLine_cont gst l hnb hsp, tsParseLine_cont tst l hib hnb hsp]
    by_cases hc : gst.currentHeader = []
    · rw [if_neg (by simpa using hc), if_neg (by rw [hcur]; simpa using hc)]
      exact ⟨hib, hbody, hhdrs, hcur, hcurlook, hvals⟩
    · rw [if_pos hc, if_pos (by rw [hcur]; exact hc)]
      rw [hcur, hhdrs]
      refine ⟨hib, hbody, rfl, rfl, ?_, ?_⟩
      · intro _
        refine ⟨getA gst.headers gst.currentHeader ++ [' '] ++ trimSpace l,
          lookupA_setA_self _ _ _, by simp⟩
      · intro kv hkv
        rcases mem_setA _ _ _ kv hkv with h1 | h2
        · rw [h1]; simp
        · exact hvals kv h2
  · -- header line with a colon: goodHeaderLine supplies all of Go's guards
    have hA : startsWithS l [' '] = false := by
      rcases Bool.or_eq_false_iff.mp (eq_false_of_ne_true hsp) with ⟨h1, _⟩
      exact h1
    have hB : startsWithS l ['\t'] = false := by
      rcases Bool.or_eq_false_iff.mp (eq_false_of_ne_true hsp) with ⟨_, h2⟩
      exact h2
    rw [goodHeaderLine, hA, hB] at hgl
    simp only [Bool.false_or] at hgl
    cases hidx : indexOfChar? l ':' with
    | none => rw [hidx] at hgl; simp at hgl
    | some cidx =>
      rw [hidx] at hgl
      simp only [Bool.and_eq_true] at hgl
      obtain ⟨h0b, ⟨⟨hneb, hnspb⟩, h50b⟩, hvalb⟩ := hgl
      have h0 : 0 < cidx := of_decide_eq_true h0b
      have hne : lowerStr (trimSpace (l.take cidx)) ≠ [] := by
        simp only [Bool.not_eq_true', List.isEmpty_eq_false] at hneb
        exact hneb
      have hnsp : containsChar (lowerStr (trimSpace (l.take cidx))) ' ' = false := by
        simpa only [Bool.not_eq_true'] using hnspb
      have h50 : ¬ (lowerStr (trimSpace (l.take cidx))).length > 50 := by
        have := of_decide_eq_true h50b
        omega
      have hval2 : trimSpace (l.drop (cidx + 1)) ≠ [] := by
        simp only [Bool.not_eq_true', List.isEmpty_eq_false] at hvalb
        exact hvalb
      have hdropne : l.drop (cidx + 1) ≠ [] := by
        intro h
        rw [h] at hval2
        exact hval2 rfl
      have hlen : cidx + 1 < l.length := by
        by_contra hcon
        exact hdropne (List.drop_eq_nil_of_le (by omega))
      have hcond : 0 < cidx ∧ cidx < l.length - 1 := ⟨h0, by omega⟩
      rw [goHeaderLine_colon gst l cidx hnb hA hB hidx hcond hne hnsp h50,
        tsParseLine_colon tst l cidx hib hnb hA hB hidx h0, hhdrs]
      cases hl : lookupA gst.headers (lowerStr (trimSpace (l.take cidx))) with
      | none =>
        dsimp only
        refine ⟨hib, hbody, rfl, rfl, ?_, ?_⟩
        · intro _
          exact ⟨trimSpace (l.drop (cidx + 1)), lookupA_setA_self _ _ _, hval2⟩
        · intro kv hkv
          rcases mem_setA _ _ _ kv hkv with h1 | h2
          · rw [h1]; exact hval2
          · exact hvals kv h2
      | some ex =>
        have hexne : ex ≠ [] :=
          hvals (lowerStr (trimSpace (l.take cidx)), ex) (lookupA_mem _ _ _ hl)
        dsimp only
        rw [if_pos hexne]
        refine ⟨hib, hbody, rfl, rfl, ?_, ?_⟩
        · intro _
          refine ⟨ex ++ [',', ' '] ++ trimSpace (l.drop (cidx + 1)),
            lookupA_setA_self _ _ _, by simp⟩
        · intro kv hkv
          rcases mem_setA _ _ _ kv hkv with h1 | h2
          · rw [h1]; simp
          · exact hvals kv h2

theorem goFold_trimcr (pre : List Str) :
    (∀ l ∈ pre, trimRightChar l '\r' = l) →
    ∀ (st : GoParseState),
      pre.foldl (fun s l => goHeaderLine s (trimRightChar l '\r')) st =
        pre.foldl goHeaderLine st := by
  induction pre with
  | nil => intro _ st; rfl
  | cons l rest ih =>
    intro h st
    rw [List.foldl_cons, List.foldl_cons, h l (List.mem_cons_self _ _),
      ih (fun x hx => h x (List.mem_cons_of_mem _ hx))]

theorem good_fold_inv (pre : List Str) :
    (∀ l ∈ pre, trimSpace l ≠ []) → (∀ l ∈ pre, goodHeaderLine l = true) →
    ∀ (gst : GoParseState) (tst : TsParseState), ParserInv gst tst →
      ParserInv (pre.foldl goHeaderLine gst) (pre.foldl tsParseLine tst) := by
  induction pre with
  | nil => intro _ _ gst tst h; exact h
  | cons l rest ih =>
    intro hnb hgl gst tst h
    rw [List.foldl_cons, List.foldl_cons]
    exact ih (fun x hx => hnb x (List.mem_cons_of_mem _ hx))
      (fun x hx => hgl x (List.mem_cons_of_mem _ hx)) _ _
      (good_line_step gst tst h l (hnb l (List.mem_cons_self _ _))
        (hgl l (List.mem_cons_self _ _)))

/-- C10 amended: on inputs whose normalized line list has a blank separator
line and whose header block consists of folded continuations and well-formed
`name: value` lines (name non-empty, space-free, at most 50 characters,
value non-empty after trimming), the Go store-side parser
(db/db.go:109-205) and the backend API parser (mail.service.ts:343-385)
produce identical header mappings, and the backend body equals the Go body
with trailing whitespace stripped (the backend applies `trimEnd`, ts:385).
Outside this class the parsers diverge (see the counterexample). -/
theorem inbound_parsers_agree (raw : Str) (pre post : List Str) (blank : Str)
    (hsplit : linesOf raw = pre ++ blank :: post)
    (hblank : trimSpace blank = [])
    (hpre_nb : ∀ l ∈ pre, trimSpace l ≠ [])
    (hgood : ∀ l ∈ pre, goodHeaderLine l = true) :
    (tsParse raw).1 = (goParseHeadersBody raw).1 ∧
    (tsParse raw).2 = trimRightSpace (goParseHeadersBody raw).2 := by
  have hnocr := linesOf_no_cr raw
  have hcr_pre : ∀ l ∈ pre, trimRightChar l '\r' = l := fun l hl =>
    trimRightChar_eq_self l '\r' (fun x hx =>
      hnocr l (hsplit ▸ List.mem_append.mpr (Or.inl hl)) x hx)
  have hcr_post : ∀ l ∈ post, trimRightChar l '\r' = l := fun l hl =>
    trimRightChar_eq_self l '\r' (fun x hx =>
      hnocr l (hsplit ▸ List.mem_append.mpr
        (Or.inr (List.mem_cons_of_mem _ hl))) x hx)
  have hfind : goHeaderEndIndex (linesOf raw) = some pre.length := by
    rw [hsplit]
    unfold goHeaderEndIndex
    have := findIdx?_separator (fun l => (trimSpace l).isEmpty) blank post
      (by simp [hblank]) pre 0
      (fun l hl => by simp [List.isEmpty_eq_false, hpre_nb l hl])
    simpa using this
  -- Go side: closed form
  have hgo : goParseHeadersBody raw =
      ((pre.foldl goHeaderLine ⟨[], []⟩).headers,
        bodyJoin (pre ++ blank :: post).length (pre.length + 1) post) := by
    simp only [goParseHeadersBody, hfind]
    rw [hsplit]
    have h1 := goScan_pre_phase ((pre ++ blank :: post).length) pre 0
      (blank :: post) ⟨[], []⟩ []
    simp only [Nat.zero_add] at h1
    rw [h1, goScan_cons, if_pos (le_refl _), if_pos rfl,
      goScan_body_phase _ post (pre.length + 1) _ [] _ (by push_cast; omega),
      goFold_trimcr pre hcr_pre]
    simp
  -- TS side: closed form via the coupling invariant
  have hinv0 : ParserInv ⟨[], []⟩ ⟨[], [], false, []⟩ :=
    ⟨rfl, rfl, rfl, rfl, fun h => absurd rfl h, by simp⟩
  have hinv := good_fold_inv pre hpre_nb hgood ⟨[], []⟩ ⟨[], [], false, []⟩ hinv0
  obtain ⟨hib1, hbody1, hhdrs1, hcur1, _, _⟩ := hinv
  have hts : tsParse raw =
      ((pre.foldl tsParseLine ⟨[], [], false, []⟩).headers,
        trimRightSpace (tsBodyJoin post)) := by
    simp only [tsParse]
    rw [hsplit, List.foldl_append, List.foldl_cons,
      tsParseLine_blank _ blank hib1 hblank,
      tsFold_body_phase post _ (by simp)]
    simp [hbody1]
  have htot : (pre.length + 1) + post.length = (pre ++ blank :: post).length := by
    simp [List.length_append]
    omega
  refine ⟨?_, ?_⟩
  · rw [hts, hgo]
    exact hhdrs1
  · rw [hts, hgo]
    exact trimRight_tsBodyJoin post (pre.length + 1) _ htot hcr_post

/-- Witness for `inbound_parsers_agree` on a concrete two-header message. -/
theorem inbound_parsers_agree_witness :
    (tsParse (("From: a@b\r\nSubject: hi\r\n\r\nbody ok").toList)).1 =
      (goParseHeadersBody (("From: a@b\r\nSubject: hi\r\n\r\nbody ok").toList)).1 ∧
    (tsParse (("From: a@b\r\nSubject: hi\r\n\r\nbody ok").toList)).2 =
      trimRightSpace
        (goParseHeadersBody (("From: a@b\r\nSubject: hi\r\n\r\nbody ok").toList)).2 :=
  inbound_parsers_agree (("From: a@b\r\nSubject: hi\r\n\r\nbody ok").toList)
    [("From: a@b".toList), ("Subject: hi".toList)] [("body ok".toList)] []
    (by decide) (by decide) (by decide) (by decide)
